import Mathlib

/-!
Verification of the aethel-ts LRU cache and the standalone doubly linked
list, as a shallow embedding.  Object references of the TypeScript source
are modelled as natural-number ids into a heap of nodes
(`Nat → Option node`); the JavaScript `Map` backing the index is modelled
as an association list; the JavaScript `number` capacity is modelled as a
rational number so that the constructor's `capacity <= 0` check is exact.
-/

set_option maxHeartbeats 1000000
set_option linter.unusedSectionVars false

namespace Aethel

/-- Pointwise update of a heap of nodes addressed by natural-number ids. -/
def updFn {α : Type} (f : Nat → Option α) (i : Nat) (v : Option α) : Nat → Option α :=
  fun j => if j = i then v else f j

@[simp] theorem updFn_same {α : Type} (f : Nat → Option α) (i : Nat) (v : Option α) :
    updFn f i v i = v := by
  simp [updFn]

@[simp] theorem updFn_ne {α : Type} (f : Nat → Option α) (i j : Nat) (v : Option α)
    (h : j ≠ i) : updFn f i v j = f j := by
  simp [updFn, h]

/-- Node in the LRU cache doubly linked list (`class LRUNode<K, V>`):
a key, a value and prev/next references, the references being ids into the
node heap. -/
structure LRUNode (K V : Type) where
  key : K
  value : V
  prev : Option Nat := none
  next : Option Nat := none
deriving DecidableEq

/-- State of `class LRUCache<K, V>`.  `cache` is the `Map<K, LRUNode>`
(association list of key/node-id pairs), `nodes` the heap holding every
allocated node, `nextId` the allocator for fresh node ids. -/
structure LRUCache (K V : Type) where
  capacity : ℚ
  cache : List (K × Nat)
  nodes : Nat → Option (LRUNode K V)
  head : Option Nat := none
  tail : Option Nat := none
  size : Nat := 0
  hits : Nat := 0
  misses : Nat := 0
  evictions : Nat := 0
  nextId : Nat := 0

/-- The freshly constructed cache body (`this.cache = new Map()` etc.). -/
def initCache (K V : Type) (capacity : ℚ) : LRUCache K V :=
  { capacity := capacity, cache := [], nodes := fun _ => none }

/-- The constructor: `if (capacity <= 0) throw new Error(...)`. -/
def mkLRUCache (K V : Type) (capacity : ℚ) : Except String (LRUCache K V) :=
  if capacity ≤ 0 then Except.error "LRUCache capacity must be greater than 0"
  else Except.ok (initCache K V capacity)

variable {K V : Type} [DecidableEq K]

/-- `Map.get(key)`: the node id the index maps `key` to. -/
def mapFind (m : List (K × Nat)) (k : K) : Option Nat :=
  (m.find? fun p => decide (p.1 = k)).map Prod.snd

/-- `Map.set(key, id)`: replace in place, or append a new entry. -/
def mapSet (m : List (K × Nat)) (k : K) (i : Nat) : List (K × Nat) :=
  if (m.find? fun p => decide (p.1 = k)).isSome then
    m.map fun p => if p.1 = k then (k, i) else p
  else m ++ [(k, i)]

/-- `Map.delete(key)`: remove the (unique) entry for `key`. -/
def mapDelete (m : List (K × Nat)) (k : K) : List (K × Nat) :=
  m.eraseP fun p => decide (p.1 = k)

namespace LRUCache

/-- `this.cache.get(key)` inside the cache methods. -/
def lookup (c : LRUCache K V) (k : K) : Option Nat :=
  mapFind c.cache k

/-- Write one node of the heap. -/
def setNode (c : LRUCache K V) (i : Nat) (n : LRUNode K V) : LRUCache K V :=
  { c with nodes := updFn c.nodes i (some n) }

/-- `private addToHead(node)`. -/
def addToHead (c : LRUCache K V) (i : Nat) : LRUCache K V :=
  match c.nodes i with
  | none => c
  | some n =>
    let c1 := c.setNode i { n with prev := none, next := c.head }
    let c2 :=
      match c.head with
      | none => c1
      | some h =>
        match c1.nodes h with
        | none => c1
        | some hn => c1.setNode h { hn with prev := some i }
    let c3 := { c2 with head := some i }
    if c3.tail = none then { c3 with tail := some i } else c3

/-- `private removeNode(node)`: relink the neighbours (or move head/tail at
a boundary), then clear the removed node's own links. -/
def removeNode (c : LRUCache K V) (i : Nat) : LRUCache K V :=
  match c.nodes i with
  | none => c
  | some n =>
    let c1 :=
      match n.prev with
      | some p =>
        match c.nodes p with
        | some pn => c.setNode p { pn with next := n.next }
        | none => c
      | none => { c with head := n.next }
    let c2 :=
      match n.next with
      | some q =>
        match c1.nodes q with
        | some qn => c1.setNode q { qn with prev := n.prev }
        | none => c1
      | none => { c1 with tail := n.prev }
    match c2.nodes i with
    | some m => c2.setNode i { m with prev := none, next := none }
    | none => c2

/-- `private moveToHead(node)`. -/
def moveToHead (c : LRUCache K V) (i : Nat) : LRUCache K V :=
  if c.head = some i then c else (c.removeNode i).addToHead i

/-- `private evictTail()`. -/
def evictTail (c : LRUCache K V) : LRUCache K V :=
  match c.tail with
  | none => c
  | some t =>
    match c.nodes t with
    | none => c
    | some tn =>
      let c1 := c.removeNode t
      let c2 := { c1 with cache := mapDelete c1.cache tn.key }
      { c2 with size := c2.size - 1, evictions := c2.evictions + 1 }

/-- `get(key)`: returns the looked-up value together with the successor
state. -/
def get (c : LRUCache K V) (k : K) : Option V × LRUCache K V :=
  match c.lookup k with
  | none => (none, { c with misses := c.misses + 1 })
  | some i =>
    let c1 := { c with hits := c.hits + 1 }
    let c2 := c1.moveToHead i
    (match c2.nodes i with
     | some n => some n.value
     | none => none, c2)

/-- `put(key, value)`. -/
def put (c : LRUCache K V) (k : K) (v : V) : LRUCache K V :=
  match c.lookup k with
  | some i =>
    let c1 :=
      match c.nodes i with
      | some n => c.setNode i { n with value := v }
      | none => c
    c1.moveToHead i
  | none =>
    let i := c.nextId
    let c1 := { c with nodes := updFn c.nodes i (some ⟨k, v, none, none⟩),
                       nextId := i + 1 }
    let c2 := { c1 with cache := mapSet c1.cache k i }
    let c3 := c2.addToHead i
    let c4 := { c3 with size := c3.size + 1 }
    if (c4.size : ℚ) > c4.capacity then c4.evictTail else c4

/-- `has(key)`: `this.cache.has(key)`. -/
def has (c : LRUCache K V) (k : K) : Bool :=
  (c.cache.find? fun p => decide (p.1 = k)).isSome

/-- `delete(key)`: returns the boolean result with the successor state. -/
def delete (c : LRUCache K V) (k : K) : Bool × LRUCache K V :=
  match c.lookup k with
  | none => (false, c)
  | some i =>
    let c1 := c.removeNode i
    let c2 := { c1 with cache := mapDelete c1.cache k }
    (true, { c2 with size := c2.size - 1 })

/-- `peek(key)`: a pure read, never mutating the state. -/
def peek (c : LRUCache K V) (k : K) : Option V :=
  (c.lookup k).bind fun i => (c.nodes i).map LRUNode.value

/-- `getMostRecent()`. -/
def getMostRecent (c : LRUCache K V) : Option (K × V) :=
  c.head.bind fun h => (c.nodes h).map fun n => (n.key, n.value)

/-- `getLeastRecent()`. -/
def getLeastRecent (c : LRUCache K V) : Option (K × V) :=
  c.tail.bind fun t => (c.nodes t).map fun n => (n.key, n.value)

/-- The link-clearing walk of `clear()` over the chain; the fuel bounds the
walk and equals the chain length in consistent states. -/
def clearWalk (nodes : Nat → Option (LRUNode K V)) :
    Option Nat → Nat → (Nat → Option (LRUNode K V))
  | none, _ => nodes
  | some _, 0 => nodes
  | some i, fuel + 1 =>
    match nodes i with
    | none => nodes
    | some n =>
      clearWalk (updFn nodes i (some { n with prev := none, next := none })) n.next fuel

/-- `clear()`. -/
def clear (c : LRUCache K V) : LRUCache K V :=
  { c with nodes := clearWalk c.nodes c.head c.size,
           cache := [], head := none, tail := none,
           size := 0, hits := 0, misses := 0, evictions := 0 }

/-- `resetStats()`. -/
def resetStats (c : LRUCache K V) : LRUCache K V :=
  { c with hits := 0, misses := 0, evictions := 0 }

/-- `get hitRate()`. -/
def hitRate (c : LRUCache K V) : ℚ :=
  if c.hits + c.misses = 0 then 0 else (c.hits : ℚ) / ((c.hits : ℚ) + (c.misses : ℚ))

/-- Forward walk along `next` links; the fuel bounds the walk. -/
def chainWalk (nodes : Nat → Option (LRUNode K V)) :
    Option Nat → Nat → List Nat
  | none, _ => []
  | some _, 0 => []
  | some i, fuel + 1 =>
    i :: chainWalk nodes (match nodes i with
                          | some n => n.next
                          | none => none) fuel

/-- The node ids reachable in the head-to-tail chain. -/
def chainIds (c : LRUCache K V) : List Nat :=
  chainWalk c.nodes c.head c.size

/-- The key stored at a node id. -/
def keyAt (c : LRUCache K V) (i : Nat) : Option K :=
  (c.nodes i).map LRUNode.key

/-- The key/value pair stored at a node id. -/
def entryAt (c : LRUCache K V) (i : Nat) : Option (K × V) :=
  (c.nodes i).map fun n => (n.key, n.value)

/-- `entries()`: the key/value pairs of the chain, most recent first. -/
def entriesList (c : LRUCache K V) : List (K × V) :=
  (chainIds c).filterMap c.entryAt

end LRUCache

/-- One public operation of the cache. -/
inductive Op (K V : Type) where
  | get (k : K)
  | put (k : K) (v : V)
  | delete (k : K)
  | clear
  | peek (k : K)
  | has (k : K)
  | resetStats
deriving DecidableEq

/-- The state transition of one public operation.  `peek` and `has` read
but never write the state, so they act as the identity. -/
def applyOp (c : LRUCache K V) : Op K V → LRUCache K V
  | Op.get k => (c.get k).2
  | Op.put k v => c.put k v
  | Op.delete k => (c.delete k).2
  | Op.clear => c.clear
  | Op.peek _ => c
  | Op.has _ => c
  | Op.resetStats => c.resetStats

/-- Run a sequence of public operations. -/
def run (c : LRUCache K V) (ops : List (Op K V)) : LRUCache K V :=
  ops.foldl applyOp c

/-- Whether an operation is one of the pure reads `peek`/`has`. -/
def Op.isReadOnly : Op K V → Bool
  | Op.peek _ => true
  | Op.has _ => true
  | _ => false

/-! ## The standalone doubly linked list (`class DoublyLinkedList<T>`) -/

/-- Node in a doubly linked list (`class DoublyLinkedListNode<T>`). -/
structure DLLNode (T : Type) where
  value : T
  prev : Option Nat := none
  next : Option Nat := none
deriving DecidableEq

/-- State of `class DoublyLinkedList<T>` (the equality function used only
by `contains` plays no role in the removal paths and is omitted). -/
structure DoublyLinkedList (T : Type) where
  nodes : Nat → Option (DLLNode T)
  head : Option Nat := none
  tail : Option Nat := none
  size : Nat := 0
  nextId : Nat := 0

/-- The empty doubly linked list. -/
def emptyDLL (T : Type) : DoublyLinkedList T :=
  { nodes := fun _ => none }

namespace DoublyLinkedList

variable {T : Type}

/-- `addFirst(value)`. -/
def addFirst (d : DoublyLinkedList T) (v : T) : DoublyLinkedList T :=
  let i := d.nextId
  match d.head with
  | none =>
    { d with nodes := updFn d.nodes i (some ⟨v, none, none⟩),
             head := some i, tail := some i, size := d.size + 1, nextId := i + 1 }
  | some h =>
    let nodes1 := updFn d.nodes i (some ⟨v, none, some h⟩)
    let nodes2 :=
      match nodes1 h with
      | some hn => updFn nodes1 h (some { hn with prev := some i })
      | none => nodes1
    { d with nodes := nodes2, head := some i, size := d.size + 1, nextId := i + 1 }

/-- `addLast(value)`. -/
def addLast (d : DoublyLinkedList T) (v : T) : DoublyLinkedList T :=
  let i := d.nextId
  match d.tail with
  | none =>
    { d with nodes := updFn d.nodes i (some ⟨v, none, none⟩),
             head := some i, tail := some i, size := d.size + 1, nextId := i + 1 }
  | some t =>
    let nodes1 := updFn d.nodes i (some ⟨v, some t, none⟩)
    let nodes2 :=
      match nodes1 t with
      | some tn => updFn nodes1 t (some { tn with next := some i })
      | none => nodes1
    { d with nodes := nodes2, tail := some i, size := d.size + 1, nextId := i + 1 }

/-- `removeFirst()`: relinks the new head (or clears `tail`), but never
touches the removed node's own links. -/
def removeFirst (d : DoublyLinkedList T) : Option T × DoublyLinkedList T :=
  match d.head with
  | none => (none, d)
  | some h =>
    match d.nodes h with
    | none => (none, d)
    | some n =>
      let d1 := { d with head := n.next }
      let d2 :=
        match n.next with
        | none => { d1 with tail := none }
        | some j =>
          match d1.nodes j with
          | some jn => { d1 with nodes := updFn d1.nodes j (some { jn with prev := none }) }
          | none => d1
      (some n.value, { d2 with size := d2.size - 1 })

/-- `removeLast()`: symmetric to `removeFirst`. -/
def removeLast (d : DoublyLinkedList T) : Option T × DoublyLinkedList T :=
  match d.tail with
  | none => (none, d)
  | some t =>
    match d.nodes t with
    | none => (none, d)
    | some n =>
      let d1 := { d with tail := n.prev }
      let d2 :=
        match n.prev with
        | none => { d1 with head := none }
        | some j =>
          match d1.nodes j with
          | some jn => { d1 with nodes := updFn d1.nodes j (some { jn with next := none }) }
          | none => d1
      (some n.value, { d2 with size := d2.size - 1 })

/-- Walk `steps` times along `next` links. -/
def walkNext (nodes : Nat → Option (DLLNode T)) : Option Nat → Nat → Option Nat
  | o, 0 => o
  | none, _ + 1 => none
  | some i, steps + 1 =>
    walkNext nodes (match nodes i with
                    | some n => n.next
                    | none => none) steps

/-- Walk `steps` times along `prev` links. -/
def walkPrev (nodes : Nat → Option (DLLNode T)) : Option Nat → Nat → Option Nat
  | o, 0 => o
  | none, _ + 1 => none
  | some i, steps + 1 =>
    walkPrev nodes (match nodes i with
                    | some n => n.prev
                    | none => none) steps

/-- `private getNodeAt(index)`: start from the closer end
(`index < this._size / 2` is `2 * index < size` over the integers). -/
def getNodeAt (d : DoublyLinkedList T) (index : Nat) : Option Nat :=
  if index ≥ d.size then none
  else if 2 * index < d.size then walkNext d.nodes d.head index
  else walkPrev d.nodes d.tail (d.size - 1 - index)

/-- `removeAt(index)`: boundary indices delegate to
`removeFirst`/`removeLast`; a middle node has its neighbours relinked, its
own links left untouched. -/
def removeAt (d : DoublyLinkedList T) (index : Nat) : Option T × DoublyLinkedList T :=
  if index ≥ d.size then (none, d)
  else if index = 0 then d.removeFirst
  else if index = d.size - 1 then d.removeLast
  else
    match d.getNodeAt index with
    | none => (none, d)
    | some j =>
      match d.nodes j with
      | none => (none, d)
      | some n =>
        let d1 :=
          match n.prev with
          | some p =>
            match d.nodes p with
            | some pn => { d with nodes := updFn d.nodes p (some { pn with next := n.next }) }
            | none => d
          | none => d
        let d2 :=
          match n.next with
          | some q =>
            match d1.nodes q with
            | some qn => { d1 with nodes := updFn d1.nodes q (some { qn with prev := n.prev }) }
            | none => d1
          | none => d1
        (some n.value, { d2 with size := d2.size - 1 })

end DoublyLinkedList

/-! ## The functional recency model

The recency order the specification describes: a list of key/value pairs
ordered from most recently touched (by `get` or `put`) to least recently
touched, restricted to the keys still present, together with the
statistics counters. -/

/-- Model state: capacity, the recency-ordered entries, the counters. -/
structure MState (K V : Type) where
  capacity : ℚ
  entries : List (K × V)
  hits : Nat := 0
  misses : Nat := 0
  evictions : Nat := 0

/-- The model of a freshly constructed cache. -/
def initM (K V : Type) (capacity : ℚ) : MState K V :=
  { capacity := capacity, entries := [] }

namespace MState

/-- Remove the entry with the given key. -/
def eraseKey (l : List (K × V)) (k : K) : List (K × V) :=
  l.eraseP fun p => decide (p.1 = k)

/-- Find the entry with the given key. -/
def findEntry (s : MState K V) (k : K) : Option (K × V) :=
  s.entries.find? fun p => decide (p.1 = k)

/-- Model of `get`: a hit moves the touched entry to the front. -/
def mget (s : MState K V) (k : K) : Option V × MState K V :=
  match s.findEntry k with
  | none => (none, { s with misses := s.misses + 1 })
  | some (_, v) =>
    (some v, { s with hits := s.hits + 1, entries := (k, v) :: eraseKey s.entries k })

/-- Model of `put`: an overwrite moves the entry to the front; an
insertion prepends, dropping the least recent entry when over capacity. -/
def mput (s : MState K V) (k : K) (v : V) : MState K V :=
  if (s.findEntry k).isSome then
    { s with entries := (k, v) :: eraseKey s.entries k }
  else
    let l := (k, v) :: s.entries
    if (l.length : ℚ) > s.capacity then
      { s with entries := l.dropLast, evictions := s.evictions + 1 }
    else { s with entries := l }

/-- Model of `delete`. -/
def mdelete (s : MState K V) (k : K) : Bool × MState K V :=
  if (s.findEntry k).isSome then (true, { s with entries := eraseKey s.entries k })
  else (false, s)

/-- Model of `clear`. -/
def mclear (s : MState K V) : MState K V :=
  { s with entries := [], hits := 0, misses := 0, evictions := 0 }

/-- Model of `resetStats`. -/
def mresetStats (s : MState K V) : MState K V :=
  { s with hits := 0, misses := 0, evictions := 0 }

end MState

/-- The model state transition of one public operation. -/
def mapplyOp (s : MState K V) : Op K V → MState K V
  | Op.get k => (s.mget k).2
  | Op.put k v => s.mput k v
  | Op.delete k => (s.mdelete k).2
  | Op.clear => s.mclear
  | Op.peek _ => s
  | Op.has _ => s
  | Op.resetStats => s.mresetStats

/-- Run a sequence of public operations on the model. -/
def mrun (s : MState K V) (ops : List (Op K V)) : MState K V :=
  ops.foldl mapplyOp s

/-! ## Chain segments -/

/-- The first id of a list, or a default. -/
def headOr (l : List Nat) (q : Option Nat) : Option Nat :=
  match l with
  | [] => q
  | i :: _ => some i

/-- The last id of a list, or a default. -/
def lastOr : List Nat → Option Nat → Option Nat
  | [], p => p
  | i :: rest, _ => lastOr rest (some i)

@[simp] theorem headOr_nil (q : Option Nat) : headOr [] q = q := rfl

@[simp] theorem headOr_cons (i : Nat) (rest : List Nat) (q : Option Nat) :
    headOr (i :: rest) q = some i := rfl

theorem headOr_append (a b : List Nat) (q : Option Nat) :
    headOr (a ++ b) q = headOr a (headOr b q) := by
  cases a <;> simp [headOr]

@[simp] theorem lastOr_nil (p : Option Nat) : lastOr [] p = p := rfl

theorem lastOr_cons (i : Nat) (rest : List Nat) (p : Option Nat) :
    lastOr (i :: rest) p = lastOr rest (some i) := rfl

theorem lastOr_append (a b : List Nat) (p : Option Nat) :
    lastOr (a ++ b) p = lastOr b (lastOr a p) := by
  induction a generalizing p with
  | nil => simp
  | cons x xs ih => simp [lastOr_cons, ih]

theorem lastOr_some (l : List Nat) (x : Nat) : ∃ y, lastOr l (some x) = some y := by
  induction l generalizing x with
  | nil => exact ⟨x, rfl⟩
  | cons i rest ih => exact (ih i).imp fun y hy => by simpa [lastOr_cons] using hy

@[simp] theorem lastOr_concat (l : List Nat) (x : Nat) (p : Option Nat) :
    lastOr (l ++ [x]) p = some x := by
  simp [lastOr_append, lastOr_cons]

/-- `Seg nodes p ids q`: the ids form a consistent doubly linked segment of
the heap: the first node's `prev` is `p`, consecutive nodes point at each
other, and the last node's `next` is `q`. -/
def Seg (nodes : Nat → Option (LRUNode K V)) : Option Nat → List Nat → Option Nat → Prop
  | _, [], _ => True
  | p, i :: rest, q =>
    (∃ n, nodes i = some n ∧ n.prev = p ∧ n.next = headOr rest q) ∧
    Seg nodes (some i) rest q

@[simp] theorem seg_nil {nodes : Nat → Option (LRUNode K V)} (p q : Option Nat) :
    Seg nodes p [] q := trivial

theorem seg_cons {nodes : Nat → Option (LRUNode K V)} {p q : Option Nat} {i : Nat}
    {rest : List Nat} :
    Seg nodes p (i :: rest) q ↔
      ((∃ n, nodes i = some n ∧ n.prev = p ∧ n.next = headOr rest q) ∧
       Seg nodes (some i) rest q) := Iff.rfl

theorem seg_append {nodes : Nat → Option (LRUNode K V)} {p q : Option Nat}
    {xs ys : List Nat} :
    Seg nodes p (xs ++ ys) q ↔
      Seg nodes p xs (headOr ys q) ∧ Seg nodes (lastOr xs p) ys q := by
  induction xs generalizing p with
  | nil => simp
  | cons x xs ih =>
    simp only [List.cons_append, seg_cons, headOr_append, lastOr_cons, ih, and_assoc]

theorem seg_congr {nodes nodes' : Nat → Option (LRUNode K V)} {p q : Option Nat}
    {ids : List Nat}
    (h : ∀ i ∈ ids, ∀ n, nodes i = some n →
      ∃ n', nodes' i = some n' ∧ n'.prev = n.prev ∧ n'.next = n.next)
    (hseg : Seg nodes p ids q) : Seg nodes' p ids q := by
  induction ids generalizing p with
  | nil => trivial
  | cons i rest ih =>
    obtain ⟨⟨n, hn, hp, hx⟩, hrest⟩ := hseg
    obtain ⟨n', hn', hp', hx'⟩ := h i (by simp) n hn
    exact ⟨⟨n', hn', hp'.trans hp, hx'.trans hx⟩,
      ih (fun j hj => h j (by simp [hj])) hrest⟩

theorem seg_congr_eq {nodes nodes' : Nat → Option (LRUNode K V)} {p q : Option Nat}
    {ids : List Nat} (h : ∀ i ∈ ids, nodes' i = nodes i)
    (hseg : Seg nodes p ids q) : Seg nodes' p ids q :=
  seg_congr (fun i hi n hn => ⟨n, (h i hi).trans hn, rfl, rfl⟩) hseg

/-! ## The structural invariant -/

/-- The exclusive invariant of the design: the chain `ids` (head to tail)
is a consistent doubly linked segment, head/tail/size agree with it, and
the index maps exactly the chain's keys to the chain's nodes. -/
structure Inv (c : LRUCache K V) (ids : List Nat) : Prop where
  nodup : ids.Nodup
  hhead : c.head = headOr ids none
  htail : c.tail = lastOr ids none
  hseg : Seg c.nodes none ids none
  hsize : c.size = ids.length
  hperm : List.Perm (c.cache.map Prod.snd) ids
  hpairs : ∀ p ∈ c.cache, ∃ n, c.nodes p.2 = some n ∧ n.key = p.1
  hkeys : (c.cache.map Prod.fst).Nodup
  hfresh : ∀ i ∈ ids, i < c.nextId

theorem entryAt_setNode (c : LRUCache K V) (i : Nat) (n' : LRUNode K V) (j : Nat) :
    (c.setNode i n').entryAt j =
      if j = i then some (n'.key, n'.value) else c.entryAt j := by
  by_cases h : j = i <;> simp [LRUCache.entryAt, LRUCache.setNode, updFn, h]

theorem addToHead_spec (c : LRUCache K V) (ids : List Nat) (i : Nat) (n : LRUNode K V)
    (hnd : ids.Nodup) (hni : i ∉ ids) (hn : c.nodes i = some n)
    (hseg : Seg c.nodes none ids none)
    (hhead : c.head = headOr ids none) (htail : c.tail = lastOr ids none) :
    Seg (c.addToHead i).nodes none (i :: ids) none ∧
    (c.addToHead i).head = some i ∧
    (c.addToHead i).tail = lastOr (i :: ids) none ∧
    (∀ j, (c.addToHead i).entryAt j = c.entryAt j) ∧
    (c.addToHead i).cache = c.cache ∧ (c.addToHead i).size = c.size ∧
    (c.addToHead i).capacity = c.capacity ∧ (c.addToHead i).hits = c.hits ∧
    (c.addToHead i).misses = c.misses ∧ (c.addToHead i).evictions = c.evictions ∧
    (c.addToHead i).nextId = c.nextId := by
  cases ids with
  | nil =>
    have hh : c.head = none := by simpa using hhead
    have ht : c.tail = none := by simpa using htail
    have hres : c.addToHead i =
        { c with nodes := updFn c.nodes i (some { n with prev := none, next := none }),
                 head := some i, tail := some i } := by
      simp [LRUCache.addToHead, hn, hh, LRUCache.setNode, ht]
    refine ⟨?_, ?_, ?_, ?_, ?_, ?_, ?_, ?_, ?_, ?_, ?_⟩
    · rw [hres]
      exact ⟨⟨{ n with prev := none, next := none }, by simp [updFn], rfl, rfl⟩, trivial⟩
    · rw [hres]
    · rw [hres]; simp [lastOr_cons]
    · intro j
      rw [hres]
      by_cases hji : j = i
      · subst hji; simp [LRUCache.entryAt, updFn, hn]
      · simp [LRUCache.entryAt, updFn, hji]
    · rw [hres]
    · rw [hres]
    · rw [hres]
    · rw [hres]
    · rw [hres]
    · rw [hres]
    · rw [hres]
  | cons h rest =>
    have hh : c.head = some h := by simpa using hhead
    obtain ⟨⟨hnode, hhn, hhp, hhx⟩, hrest⟩ := hseg
    have hih : i ≠ h := by rintro rfl; exact hni (by simp)
    have hhi : ¬(h = i) := fun e => hih e.symm
    obtain ⟨y, hy⟩ := lastOr_some rest h
    have ht : c.tail = some y := by rw [htail]; simpa [lastOr_cons] using hy
    have hres : c.addToHead i =
        { c with nodes := updFn (updFn c.nodes i (some { n with prev := none, next := some h }))
                   h (some { hnode with prev := some i }),
                 head := some i } := by
      simp [LRUCache.addToHead, hn, hh, LRUCache.setNode, updFn, hhi, hhn, ht]
    have hni' : i ∉ rest := fun hr => hni (by simp [hr])
    have hhr : h ∉ rest := (List.nodup_cons.mp hnd).1
    refine ⟨?_, ?_, ?_, ?_, ?_, ?_, ?_, ?_, ?_, ?_, ?_⟩
    · rw [hres]
      refine ⟨⟨{ n with prev := none, next := some h }, ?_, rfl, by simp⟩,
              ⟨{ hnode with prev := some i }, ?_, rfl, ?_⟩, ?_⟩
      · simp [updFn, hih, hhi]
      · simp [updFn]
      · simpa using hhx
      · refine seg_congr_eq (fun j hj => ?_) hrest
        have hjh : ¬(j = h) := fun e => hhr (e ▸ hj)
        have hji : ¬(j = i) := fun e => hni' (e ▸ hj)
        simp [updFn, hjh, hji]
    · rw [hres]
    · rw [hres]; simpa [lastOr_cons] using htail
    · intro j
      rw [hres]
      by_cases hjh : j = h
      · subst hjh; simp [LRUCache.entryAt, updFn, hhi, hhn]
      · by_cases hji : j = i
        · subst hji; simp [LRUCache.entryAt, updFn, hjh, hn]
        · simp [LRUCache.entryAt, updFn, hjh, hji]
    · rw [hres]
    · rw [hres]
    · rw [hres]
    · rw [hres]
    · rw [hres]
    · rw [hres]
    · rw [hres]

theorem removeNode_spec (c : LRUCache K V) (l1 l2 : List Nat) (i : Nat)
    (hnd : (l1 ++ i :: l2).Nodup)
    (hseg : Seg c.nodes none (l1 ++ i :: l2) none)
    (hhead : c.head = headOr (l1 ++ i :: l2) none)
    (htail : c.tail = lastOr (l1 ++ i :: l2) none) :
    Seg (c.removeNode i).nodes none (l1 ++ l2) none ∧
    (c.removeNode i).head = headOr (l1 ++ l2) none ∧
    (c.removeNode i).tail = lastOr (l1 ++ l2) none ∧
    (∀ j, (c.removeNode i).entryAt j = c.entryAt j) ∧
    (∃ n, c.nodes i = some n ∧
      (c.removeNode i).nodes i = some { n with prev := none, next := none }) ∧
    (c.removeNode i).cache = c.cache ∧ (c.removeNode i).size = c.size ∧
    (c.removeNode i).capacity = c.capacity ∧ (c.removeNode i).hits = c.hits ∧
    (c.removeNode i).misses = c.misses ∧ (c.removeNode i).evictions = c.evictions ∧
    (c.removeNode i).nextId = c.nextId := by
  obtain ⟨hseg1, hseg2⟩ := seg_append.mp hseg
  obtain ⟨⟨n, hni, hprev, hnext⟩, hseg2'⟩ := hseg2
  rcases List.eq_nil_or_concat l1 with rfl | ⟨l1', p, hc⟩
  · -- no predecessor: the removed node is the head
    have hprev' : n.prev = none := by simpa using hprev
    cases l2 with
    | nil =>
      have hnext' : n.next = none := by simpa using hnext
      have hres : c.removeNode i =
          { c with nodes := updFn c.nodes i (some { n with prev := none, next := none }),
                   head := none, tail := none } := by
        simp [LRUCache.removeNode, hni, hprev', hnext', LRUCache.setNode]
      refine ⟨?_, ?_, ?_, ?_, ?_, ?_, ?_, ?_, ?_, ?_, ?_, ?_⟩
      · simp
      · rw [hres]; simp
      · rw [hres]; simp
      · intro j
        rw [hres]
        by_cases hji : j = i
        · subst hji; simp [LRUCache.entryAt, updFn, hni]
        · simp [LRUCache.entryAt, updFn, hji]
      · exact ⟨n, hni, by rw [hres]; simp [updFn]⟩
      · rw [hres]
      · rw [hres]
      · rw [hres]
      · rw [hres]
      · rw [hres]
      · rw [hres]
      · rw [hres]
    | cons q l2' =>
      have hnext' : n.next = some q := by simpa using hnext
      obtain ⟨⟨qn, hqn, hqp, hqx⟩, hseg3⟩ := hseg2'
      have hndB : (¬i = q ∧ i ∉ l2') ∧ q ∉ l2' ∧ l2'.Nodup := by simpa using hnd
      have hiq' : ¬(i = q) := hndB.1.1
      have hqi : ¬(q = i) := fun e => hiq' e.symm
      have hil : i ∉ l2' := hndB.1.2
      have hql : q ∉ l2' := hndB.2.1
      have hres : c.removeNode i =
          { c with nodes := updFn (updFn c.nodes q (some { qn with prev := none })) i
                     (some { n with prev := none, next := none }),
                   head := some q } := by
        simp [LRUCache.removeNode, hni, hprev', hnext', hqn, LRUCache.setNode, updFn, hiq']
      refine ⟨?_, ?_, ?_, ?_, ?_, ?_, ?_, ?_, ?_, ?_, ?_, ?_⟩
      · rw [hres]
        refine ⟨⟨{ qn with prev := none }, ?_, rfl, ?_⟩, ?_⟩
        · simp [updFn, hqi]
        · simpa using hqx
        · refine seg_congr_eq (fun j hj => ?_) hseg3
          have hjq : ¬(j = q) := fun e => hql (e ▸ hj)
          have hji : ¬(j = i) := fun e => hil (e ▸ hj)
          simp [updFn, hjq, hji]
      · rw [hres]; simp
      · rw [hres]
        rw [htail]
        simp [lastOr_cons]
      · intro j
        rw [hres]
        by_cases hji : j = i
        · subst hji; simp [LRUCache.entryAt, updFn, hni]
        · by_cases hjq : j = q
          · subst hjq; simp [LRUCache.entryAt, updFn, hji, hqn]
          · simp [LRUCache.entryAt, updFn, hji, hjq]
      · exact ⟨n, hni, by rw [hres]; simp [updFn]⟩
      · rw [hres]
      · rw [hres]
      · rw [hres]
      · rw [hres]
      · rw [hres]
      · rw [hres]
      · rw [hres]
  · -- a predecessor exists: l1 = l1' ++ [p]
    rw [List.concat_eq_append] at hc
    subst hc
    have hprev' : n.prev = some p := by simpa using hprev
    obtain ⟨hseg1a, hseg1b⟩ := seg_append.mp hseg1
    obtain ⟨⟨pn, hpn, hpp, hpx⟩, -⟩ := hseg1b
    have hpx' : pn.next = some i := by simpa using hpx
    have hndA : (l1' ++ [p]).Nodup ∧ (i :: l2).Nodup ∧
        ∀ a ∈ l1' ++ [p], a ∉ i :: l2 := by
      have := List.nodup_append.mp hnd
      exact ⟨this.1, this.2.1, fun a ha hb => this.2.2 ha hb⟩
    have hpi : ¬(p = i) := fun e => hndA.2.2 p (by simp) (by simp [e])
    have hpl2 : p ∉ l2 := fun hm => hndA.2.2 p (by simp) (by simp [hm])
    have hil1 : i ∉ l1' := fun hm => hndA.2.2 i (by simp [hm]) (by simp)
    have hpl1 : p ∉ l1' := by
      have := List.nodup_append.mp hndA.1
      exact fun hm => this.2.2 hm (by simp)
    have hip' : ¬(i = p) := fun e => hpi e.symm
    cases l2 with
    | nil =>
      have hnext' : n.next = none := by simpa using hnext
      have hres : c.removeNode i =
          { c with nodes := updFn (updFn c.nodes p (some { pn with next := none })) i
                     (some { n with prev := none, next := none }),
                   tail := some p } := by
        simp [LRUCache.removeNode, hni, hprev', hnext', hpn, LRUCache.setNode, updFn, hip']
      refine ⟨?_, ?_, ?_, ?_, ?_, ?_, ?_, ?_, ?_, ?_, ?_, ?_⟩
      · rw [hres]
        have hseg1a' : Seg c.nodes none l1' (some p) := by simpa using hseg1a
        simp only [List.append_nil]
        rw [seg_append]
        constructor
        · simp only [headOr_cons]
          refine seg_congr_eq (fun j hj => ?_) hseg1a'
          have hjp : ¬(j = p) := fun e => hpl1 (e ▸ hj)
          have hji : ¬(j = i) := fun e => hil1 (e ▸ hj)
          simp [updFn, hjp, hji]
        · refine ⟨⟨{ pn with next := none }, ?_, ?_, by simp⟩, trivial⟩
          · simp [updFn, hpi]
          · simpa using hpp
      · rw [hres]
        rw [hhead]
        simp [headOr_append]
      · rw [hres]
        simp
      · intro j
        rw [hres]
        by_cases hji : j = i
        · subst hji; simp [LRUCache.entryAt, updFn, hni]
        · by_cases hjp : j = p
          · subst hjp; simp [LRUCache.entryAt, updFn, hji, hpn]
          · simp [LRUCache.entryAt, updFn, hji, hjp]
      · exact ⟨n, hni, by rw [hres]; simp [updFn]⟩
      · rw [hres]
      · rw [hres]
      · rw [hres]
      · rw [hres]
      · rw [hres]
      · rw [hres]
      · rw [hres]
    | cons q l2' =>
      have hnext' : n.next = some q := by simpa using hnext
      obtain ⟨⟨qn, hqn, hqp, hqx⟩, hseg3⟩ := hseg2'
      have hiqmem : i ∉ q :: l2' := (List.nodup_cons.mp hndA.2.1).1
      have hiq : ¬(q = i) := fun e => hiqmem (by simp [e])
      have hiq' : ¬(i = q) := fun e => hiq e.symm
      have hpq : ¬(q = p) := fun e => hpl2 (by simp [← e])
      have hil2 : i ∉ l2' := fun hm => hiqmem (by simp [hm])
      have hql2 : q ∉ l2' :=
        (List.nodup_cons.mp (List.nodup_cons.mp hndA.2.1).2).1
      have hpl2' : p ∉ l2' := fun hm => hpl2 (by simp [hm])
      have hres : c.removeNode i =
          { c with nodes := updFn (updFn (updFn c.nodes p (some { pn with next := some q })) q
                     (some { qn with prev := some p })) i
                     (some { n with prev := none, next := none }) } := by
        simp [LRUCache.removeNode, hni, hprev', hnext', hpn, hqn, LRUCache.setNode, updFn,
          hip', hpq, hiq']
      have hqp' : ¬(p = q) := fun e => hpq e.symm
      refine ⟨?_, ?_, ?_, ?_, ?_, ?_, ?_, ?_, ?_, ?_, ?_, ?_⟩
      · rw [hres]
        have hseg1a' : Seg c.nodes none l1' (some p) := by simpa using hseg1a
        rw [seg_append]
        constructor
        · rw [seg_append]
          constructor
          · simp only [headOr_cons]
            refine seg_congr_eq (fun j hj => ?_) hseg1a'
            have hjp : ¬(j = p) := fun e => hpl1 (e ▸ hj)
            have hji : ¬(j = i) := fun e => hil1 (e ▸ hj)
            have hjq : ¬(j = q) := fun e =>
              hndA.2.2 j (by simp [hj]) (by simp [e])
            simp [updFn, hjp, hji, hjq]
          · refine ⟨⟨{ pn with next := some q }, ?_, ?_, by simp⟩, trivial⟩
            · simp [updFn, hpi, hqp']
            · simpa using hpp
        · simp only [lastOr_concat]
          refine ⟨⟨{ qn with prev := some p }, ?_, by simp, ?_⟩, ?_⟩
          · simp [updFn, hiq]
          · simpa using hqx
          · refine seg_congr_eq (fun j hj => ?_) hseg3
            have hjq : ¬(j = q) := fun e => hql2 (e ▸ hj)
            have hji : ¬(j = i) := fun e => hil2 (e ▸ hj)
            have hjp : ¬(j = p) := fun e => hpl2' (e ▸ hj)
            simp [updFn, hjq, hji, hjp]
      · rw [hres]
        rw [hhead]
        simp [headOr_append]
      · rw [hres]
        rw [htail]
        simp [lastOr_append, lastOr_cons]
      · intro j
        rw [hres]
        by_cases hji : j = i
        · subst hji; simp [LRUCache.entryAt, updFn, hni]
        · by_cases hjq : j = q
          · subst hjq; simp [LRUCache.entryAt, updFn, hji, hqn]
          · by_cases hjp : j = p
            · subst hjp; simp [LRUCache.entryAt, updFn, hji, hjq, hpn]
            · simp [LRUCache.entryAt, updFn, hji, hjq, hjp]
      · exact ⟨n, hni, by rw [hres]; simp [updFn]⟩
      · rw [hres]
      · rw [hres]
      · rw [hres]
      · rw [hres]
      · rw [hres]
      · rw [hres]
      · rw [hres]

theorem entryAt_some_iff (c : LRUCache K V) (j : Nat) (k : K) (v : V) :
    c.entryAt j = some (k, v) ↔ ∃ n, c.nodes j = some n ∧ n.key = k ∧ n.value = v := by
  cases h : c.nodes j <;> simp [LRUCache.entryAt, h]

theorem moveToHead_spec (c : LRUCache K V) (ids : List Nat) (i : Nat)
    (hnd : ids.Nodup) (hmem : i ∈ ids)
    (hseg : Seg c.nodes none ids none)
    (hhead : c.head = headOr ids none) (htail : c.tail = lastOr ids none) :
    Seg (c.moveToHead i).nodes none (i :: ids.erase i) none ∧
    (c.moveToHead i).head = some i ∧
    (c.moveToHead i).tail = lastOr (i :: ids.erase i) none ∧
    (∀ j, (c.moveToHead i).entryAt j = c.entryAt j) ∧
    (c.moveToHead i).cache = c.cache ∧ (c.moveToHead i).size = c.size ∧
    (c.moveToHead i).capacity = c.capacity ∧ (c.moveToHead i).hits = c.hits ∧
    (c.moveToHead i).misses = c.misses ∧ (c.moveToHead i).evictions = c.evictions ∧
    (c.moveToHead i).nextId = c.nextId := by
  by_cases hh : c.head = some i
  · have hres : c.moveToHead i = c := by simp [LRUCache.moveToHead, hh]
    cases ids with
    | nil => simp at hmem
    | cons x rest =>
      have hx : x = i := by
        have := hh.symm.trans hhead
        simpa using this.symm
      subst hx
      have hir : x ∉ rest := (List.nodup_cons.mp hnd).1
      rw [hres, List.erase_cons_head]
      exact ⟨hseg, hh, by simpa [lastOr_cons] using htail, fun j => rfl, rfl, rfl, rfl,
        rfl, rfl, rfl, rfl⟩
  · obtain ⟨l1, l2, rfl⟩ := List.append_of_mem hmem
    have hl1ne : l1 ≠ [] := by
      rintro rfl
      exact hh (by simpa using hhead)
    have hremove := removeNode_spec c l1 l2 i hnd hseg hhead htail
    obtain ⟨hseg', hhead', htail', hentry', ⟨n, hn, hcleared⟩, hcache', hsize', hcap',
      hhits', hmisses', hevict', hnext'⟩ := hremove
    have hndrest : (l1 ++ l2).Nodup := by
      have hsub : (l1 ++ l2).Sublist (l1 ++ i :: l2) :=
        List.Sublist.append_left (List.sublist_cons_self i l2) l1
      exact hnd.sublist hsub
    have hni2 : i ∉ l1 ++ l2 := by
      have := List.nodup_append.mp hnd
      have hil1 : i ∉ l1 := fun hm => this.2.2 hm (by simp)
      have hil2 : i ∉ l2 := (List.nodup_cons.mp this.2.1).1
      simp [hil1, hil2]
    have hadd := addToHead_spec (c.removeNode i) (l1 ++ l2) i _ hndrest hni2 hcleared
      hseg' hhead' htail'
    obtain ⟨haseg, hahead, hatail, haentry, hacache, hasize, hacap, hahits, hamisses,
      haevict, hanext⟩ := hadd
    have hmove : c.moveToHead i = (c.removeNode i).addToHead i := by
      simp [LRUCache.moveToHead, hh]
    have herase : (l1 ++ i :: l2).erase i = l1 ++ l2 := by
      have hil1 : i ∉ l1 := by
        have := List.nodup_append.mp hnd
        exact fun hm => this.2.2 hm (by simp)
      rw [List.erase_append_right _ hil1, List.erase_cons_head]
    rw [hmove, herase]
    refine ⟨haseg, hahead, hatail, ?_, hacache.trans hcache', hasize.trans hsize',
      hacap.trans hcap', hahits.trans hhits', hamisses.trans hmisses',
      haevict.trans hevict', hanext.trans hnext'⟩
    intro j
    exact (haentry j).trans (hentry' j)

theorem keyAt_eq_map (c : LRUCache K V) (j : Nat) :
    c.keyAt j = (c.entryAt j).map Prod.fst := by
  cases h : c.nodes j <;> simp [LRUCache.keyAt, LRUCache.entryAt, h]

theorem inv_keyAt_nodup (c : LRUCache K V) (ids : List Nat) (hInv : Inv c ids) :
    (ids.map c.keyAt).Nodup := by
  have hcongr : c.cache.map (fun p => c.keyAt p.2) = (c.cache.map Prod.fst).map some := by
    rw [List.map_map]
    refine List.map_congr_left fun p hp => ?_
    obtain ⟨n, hn, hk⟩ := hInv.hpairs p hp
    simp [LRUCache.keyAt, hn, hk]
  have hperm2 : List.Perm (c.cache.map fun p => c.keyAt p.2) (ids.map c.keyAt) := by
    have := hInv.hperm.map c.keyAt
    simpa [List.map_map] using this
  have hnd : (c.cache.map fun p => c.keyAt p.2).Nodup := by
    rw [hcongr]
    exact hInv.hkeys.map (Option.some_injective K)
  exact hperm2.nodup hnd

theorem mapFind_eq_none (m : List (K × Nat)) (k : K) :
    mapFind m k = none ↔ ∀ p ∈ m, p.1 ≠ k := by
  simp [mapFind, List.find?_eq_none]

theorem mapFind_eq_some (m : List (K × Nat)) (k : K) (i : Nat)
    (hkeys : (m.map Prod.fst).Nodup) :
    mapFind m k = some i ↔ (k, i) ∈ m := by
  induction m with
  | nil => simp [mapFind]
  | cons p rest ih =>
    obtain ⟨k', i'⟩ := p
    obtain ⟨hk', hknd⟩ := List.nodup_cons.mp hkeys
    by_cases hk : k' = k
    · subst hk
      have hnotin : (k', i) ∉ rest := fun hm =>
        hk' (List.mem_map.mpr ⟨(k', i), hm, rfl⟩)
      simp [mapFind, List.find?_cons_of_pos, hnotin]
      constructor
      · rintro rfl; rfl
      · rintro rfl; rfl
    · have heq : mapFind ((k', i') :: rest) k = mapFind rest k := by
        simp [mapFind, List.find?_cons_of_neg, hk]
      rw [heq, ih hknd]
      constructor
      · exact fun h => List.mem_cons_of_mem _ h
      · intro h
        rcases List.mem_cons.mp h with h | h
        · exact absurd (congrArg Prod.fst h) (fun e => hk e.symm)
        · exact h

theorem has_eq_lookup (c : LRUCache K V) (k : K) :
    c.has k = (c.lookup k).isSome := by
  simp [LRUCache.has, LRUCache.lookup, mapFind]

theorem inv_lookup_iff (c : LRUCache K V) (ids : List Nat) (hInv : Inv c ids)
    (k : K) (i : Nat) :
    c.lookup k = some i ↔ (i ∈ ids ∧ c.keyAt i = some k) := by
  rw [LRUCache.lookup, mapFind_eq_some _ _ _ hInv.hkeys]
  constructor
  · intro hmem
    refine ⟨?_, ?_⟩
    · have : i ∈ c.cache.map Prod.snd := List.mem_map_of_mem Prod.snd hmem
      exact hInv.hperm.mem_iff.mp this
    · obtain ⟨n, hn, hk⟩ := hInv.hpairs (k, i) hmem
      simp [LRUCache.keyAt, hn, hk]
  · rintro ⟨hi, hk⟩
    have : i ∈ c.cache.map Prod.snd := hInv.hperm.mem_iff.mpr hi
    obtain ⟨p, hp, hpi⟩ := List.mem_map.mp this
    obtain ⟨n, hn, hkey⟩ := hInv.hpairs p hp
    have : c.keyAt p.2 = some p.1 := by simp [LRUCache.keyAt, hn, hkey]
    rw [hpi] at this
    rw [this] at hk
    have hk1 : p.1 = k := by simpa using hk
    have : p = (k, i) := by
      cases p; simp_all
    rwa [this] at hp

theorem corr_find (c : LRUCache K V) (ids : List Nat) (l : List (K × V))
    (hcorr : ids.map c.entryAt = l.map some)
    (hknd : (ids.map c.keyAt).Nodup)
    (i : Nat) (k : K) (v : V) (hi : i ∈ ids) (he : c.entryAt i = some (k, v)) :
    l.find? (fun p => decide (p.1 = k)) = some (k, v) ∧
    (ids.erase i).map c.entryAt = (MState.eraseKey l k).map some := by
  induction ids generalizing l with
  | nil => cases hi
  | cons x rest ih =>
    cases l with
    | nil => simp at hcorr
    | cons e l' =>
      simp only [List.map_cons, List.cons.injEq] at hcorr
      obtain ⟨hx, hrest⟩ := hcorr
      obtain ⟨hk1, hknd'⟩ := List.nodup_cons.mp hknd
      by_cases hxi : x = i
      · subst hxi
        have he' : e = (k, v) := by
          rw [hx] at he
          exact Option.some.inj he
        subst he'
        refine ⟨?_, ?_⟩
        · exact List.find?_cons_of_pos _ (by simp)
        · rw [List.erase_cons_head]
          have : MState.eraseKey ((k, v) :: l') k = l' := by
            simp [MState.eraseKey, List.eraseP_cons_of_pos]
          rw [this]
          exact hrest
      · have hi' : i ∈ rest := by
          rcases List.mem_cons.mp hi with h | h
          · exact absurd h.symm hxi
          · exact h
        have hkeq : c.keyAt i = some k := by rw [keyAt_eq_map, he]; rfl
        have hkx : c.keyAt x ≠ some k := by
          intro hcon
          exact hk1 (by rw [hcon, ← hkeq]; exact List.mem_map_of_mem _ hi')
        have he1 : ¬(e.1 = k) := by
          have hx1 : c.keyAt x = some e.1 := by rw [keyAt_eq_map, hx]; rfl
          intro hcon
          exact hkx (by rw [hx1, hcon])
        obtain ⟨hf, her⟩ := ih l' hrest hknd' hi'
        refine ⟨?_, ?_⟩
        · rw [List.find?_cons_of_neg _ (by simp [he1])]
          exact hf
        · rw [List.erase_cons_tail]
          · have : MState.eraseKey (e :: l') k = e :: MState.eraseKey l' k := by
              simp [MState.eraseKey, List.eraseP_cons_of_neg, he1]
            rw [this]
            simp only [List.map_cons, List.cons.injEq]
            exact ⟨hx, her⟩
          · simp [hxi]

/-- Refinement relation: the pointer-level cache realises the functional
recency model. -/
def Models (c : LRUCache K V) (s : MState K V) : Prop :=
  ∃ ids : List Nat, Inv c ids ∧ ids.map c.entryAt = s.entries.map some ∧
    c.capacity = s.capacity ∧ c.hits = s.hits ∧ c.misses = s.misses ∧
    c.evictions = s.evictions

theorem models_size (c : LRUCache K V) (s : MState K V) (hM : Models c s) :
    c.size = s.entries.length := by
  obtain ⟨ids, hInv, hcorr, -, -, -, -⟩ := hM
  have := congrArg List.length hcorr
  simpa [hInv.hsize] using this

theorem corr_mem (c : LRUCache K V) (ids : List Nat) (l : List (K × V))
    (hcorr : ids.map c.entryAt = l.map some) (p : K × V) (hp : p ∈ l) :
    ∃ i ∈ ids, c.entryAt i = some p := by
  induction ids generalizing l with
  | nil =>
    cases l with
    | nil => cases hp
    | cons e l' => simp at hcorr
  | cons x rest ih =>
    cases l with
    | nil => cases hp
    | cons e l' =>
      simp only [List.map_cons, List.cons.injEq] at hcorr
      obtain ⟨hx, hrest⟩ := hcorr
      rcases List.mem_cons.mp hp with rfl | hp'
      · exact ⟨x, by simp, hx⟩
      · obtain ⟨i, hi, he⟩ := ih l' hrest hp'
        exact ⟨i, by simp [hi], he⟩

theorem inv_counters (c : LRUCache K V) (ids : List Nat) (hInv : Inv c ids)
    (h m e : Nat) : Inv { c with hits := h, misses := m, evictions := e } ids := by
  obtain ⟨a1, a2, a3, a4, a5, a6, a7, a8, a9⟩ := hInv
  exact ⟨a1, a2, a3, a4, a5, a6, a7, a8, a9⟩

theorem pairs_transfer (c c' : LRUCache K V)
    (hentry : ∀ j, c'.entryAt j = c.entryAt j) (m : List (K × Nat))
    (hp : ∀ p ∈ m, ∃ n, c.nodes p.2 = some n ∧ n.key = p.1) :
    ∀ p ∈ m, ∃ n, c'.nodes p.2 = some n ∧ n.key = p.1 := by
  intro p hpm
  obtain ⟨n, hn, hk⟩ := hp p hpm
  have hone : c.entryAt p.2 = some (n.key, n.value) := by
    simp [LRUCache.entryAt, hn]
  rw [← hentry] at hone
  obtain ⟨n', hn', hk', -⟩ := (entryAt_some_iff c' p.2 n.key n.value).mp hone
  exact ⟨n', hn', hk'.trans hk⟩

theorem inv_moveToHead (c : LRUCache K V) (ids : List Nat) (i : Nat)
    (hInv : Inv c ids) (hmem : i ∈ ids) :
    Inv (c.moveToHead i) (i :: ids.erase i) ∧
    (∀ j, (c.moveToHead i).entryAt j = c.entryAt j) ∧
    (c.moveToHead i).cache = c.cache ∧ (c.moveToHead i).size = c.size ∧
    (c.moveToHead i).capacity = c.capacity ∧ (c.moveToHead i).hits = c.hits ∧
    (c.moveToHead i).misses = c.misses ∧ (c.moveToHead i).evictions = c.evictions ∧
    (c.moveToHead i).nextId = c.nextId := by
  obtain ⟨hnd, hhead, htail, hseg, hsize, hperm, hpairs, hkeys, hfresh⟩ := hInv
  obtain ⟨hseg', hhead', htail', hentry', hcache', hsize', hcap', hhits', hmisses',
    hevt', hnid'⟩ := moveToHead_spec c ids i hnd hmem hseg hhead htail
  refine ⟨⟨?_, ?_, ?_, hseg', ?_, ?_, ?_, ?_, ?_⟩, hentry', hcache', hsize', hcap',
    hhits', hmisses', hevt', hnid'⟩
  · exact List.nodup_cons.mpr ⟨fun hmem' => absurd ((hnd.mem_erase_iff).mp hmem').1 (by simp),
      hnd.erase i⟩
  · simpa using hhead'
  · exact htail'
  · rw [hsize', hsize]
    have := List.length_erase_of_mem hmem
    simp only [List.length_cons, this]
    have : 1 ≤ ids.length := List.length_pos.mpr (List.ne_nil_of_mem hmem)
    omega
  · rw [hcache']
    exact hperm.trans (List.perm_cons_erase hmem)
  · rw [hcache']
    exact pairs_transfer c _ hentry' c.cache hpairs
  · rw [hcache']
    exact hkeys
  · intro j hj
    rw [hnid']
    rcases List.mem_cons.mp hj with rfl | hj'
    · exact hfresh j hmem
    · exact hfresh j (hnd.mem_erase_iff.mp hj').2

theorem models_get (c : LRUCache K V) (s : MState K V) (k : K) (hM : Models c s) :
    (c.get k).1 = (MState.mget s k).1 ∧ Models (c.get k).2 (MState.mget s k).2 := by
  obtain ⟨ids, hInv, hcorr, hcap, hhits, hmisses, hevt⟩ := hM
  cases hl : c.lookup k with
  | none =>
    have hfind : s.findEntry k = none := by
      rw [MState.findEntry, List.find?_eq_none]
      intro p hp
      simp only [decide_eq_true_eq]
      intro hpk
      obtain ⟨i, hi, he⟩ := corr_mem c ids s.entries hcorr p hp
      have hkAt : c.keyAt i = some k := by
        simp [keyAt_eq_map, he, hpk]
      have : c.lookup k = some i := (inv_lookup_iff c ids hInv k i).mpr ⟨hi, hkAt⟩
      rw [hl] at this
      cases this
    have hstep : (c.get k).2 = { c with misses := c.misses + 1 } := by
      simp [LRUCache.get, hl]
    refine ⟨?_, ?_⟩
    · simp [LRUCache.get, hl, MState.mget, hfind]
    · rw [hstep]
      refine ⟨ids, inv_counters c ids hInv _ _ _, ?_, ?_, ?_, ?_, ?_⟩
      · simpa [MState.mget, hfind] using hcorr
      · simpa [MState.mget, hfind] using hcap
      · simpa [MState.mget, hfind] using hhits
      · simp [MState.mget, hfind, hmisses]
      · simpa [MState.mget, hfind] using hevt
  | some i =>
    obtain ⟨hi, hkAt⟩ := (inv_lookup_iff c ids hInv k i).mp hl
    obtain ⟨v, he⟩ : ∃ v, c.entryAt i = some (k, v) := by
      have hkAt' : (c.entryAt i).map Prod.fst = some k := by
        rw [← keyAt_eq_map]; exact hkAt
      cases hent : c.entryAt i with
      | none => rw [hent] at hkAt'; cases hkAt'
      | some p =>
        obtain ⟨k1, v1⟩ := p
        rw [hent] at hkAt'
        have hk1 : k1 = k := by simpa using hkAt'
        exact ⟨v1, by rw [← hk1]⟩

    obtain ⟨hfind, herase⟩ := corr_find c ids s.entries hcorr
      (inv_keyAt_nodup c ids hInv) i k v hi he
    have hfindE : s.findEntry k = some (k, v) := hfind
    -- the hit path: hits incremented, then moveToHead
    set c1 : LRUCache K V := { c with hits := c.hits + 1 } with hc1
    have hInv1 : Inv c1 ids := inv_counters c ids hInv _ _ _
    obtain ⟨hInv2, hentry2, hcache2, hsize2, hcap2, hhits2, hmisses2, hevt2, hnid2⟩ :=
      inv_moveToHead c1 ids i hInv1 hi
    have hentry2' : ∀ j, (c1.moveToHead i).entryAt j = c.entryAt j := fun j => hentry2 j
    have hstep : (c.get k).2 = c1.moveToHead i := by
      simp [LRUCache.get, hl, hc1]
    have hval : (c.get k).1 = some v := by
      have : (c1.moveToHead i).entryAt i = some (k, v) := by rw [hentry2' i]; exact he
      obtain ⟨n', hn', -, hv'⟩ := (entryAt_some_iff _ i k v).mp this
      simp [LRUCache.get, hl, hc1, hn', hv']
    refine ⟨?_, ?_⟩
    · rw [hval]
      simp [MState.mget, hfindE]
    · rw [hstep]
      refine ⟨i :: ids.erase i, hInv2, ?_, ?_, ?_, ?_, ?_⟩
      · simp only [MState.mget, hfindE, List.map_cons]
        have hmapeq : (ids.erase i).map (c1.moveToHead i).entryAt =
            (ids.erase i).map c.entryAt :=
          List.map_congr_left fun j _ => hentry2' j
        rw [hmapeq]
        have hi' : (c1.moveToHead i).entryAt i = some (k, v) := by
          rw [hentry2' i]; exact he
        rw [hi', herase]
      · rw [hcap2]; simp [MState.mget, hfindE, hc1, hcap]
      · rw [hhits2]; simp [MState.mget, hfindE, hc1, hhits]
      · rw [hmisses2]; simp [MState.mget, hfindE, hc1, hmisses]
      · rw [hevt2]; simp [MState.mget, hfindE, hc1, hevt]

theorem corr_lookup_none (c : LRUCache K V) (ids : List Nat) (l : List (K × V))
    (hInv : Inv c ids) (hcorr : ids.map c.entryAt = l.map some) (k : K)
    (hl : c.lookup k = none) :
    l.find? (fun p => decide (p.1 = k)) = none := by
  rw [List.find?_eq_none]
  intro p hp
  simp only [decide_eq_true_eq]
  intro hpk
  obtain ⟨i, hi, he⟩ := corr_mem c ids l hcorr p hp
  have hkAt : c.keyAt i = some k := by
    simp [keyAt_eq_map, he, hpk]
  have : c.lookup k = some i := (inv_lookup_iff c ids hInv k i).mpr ⟨hi, hkAt⟩
  rw [hl] at this
  cases this

theorem inv_lookup_entry (c : LRUCache K V) (ids : List Nat) (hInv : Inv c ids)
    (k : K) (i : Nat) (hl : c.lookup k = some i) :
    i ∈ ids ∧ ∃ v, c.entryAt i = some (k, v) := by
  obtain ⟨hi, hkAt⟩ := (inv_lookup_iff c ids hInv k i).mp hl
  refine ⟨hi, ?_⟩
  have hkAt' : (c.entryAt i).map Prod.fst = some k := by
    rw [← keyAt_eq_map]; exact hkAt
  cases hent : c.entryAt i with
  | none => rw [hent] at hkAt'; cases hkAt'
  | some p =>
    obtain ⟨k1, v1⟩ := p
    rw [hent] at hkAt'
    have hk1 : k1 = k := by simpa using hkAt'
    exact ⟨v1, by rw [← hk1]⟩

theorem mapDelete_decomp (m : List (K × Nat)) (k : K) (i : Nat)
    (hmem : (k, i) ∈ m) (hkeys : (m.map Prod.fst).Nodup) :
    ∃ m1 m2, m = m1 ++ (k, i) :: m2 ∧ mapDelete m k = m1 ++ m2 ∧
      k ∉ m1.map Prod.fst := by
  induction m with
  | nil => cases hmem
  | cons p rest ih =>
    obtain ⟨hk', hknd⟩ := List.nodup_cons.mp hkeys
    by_cases hpk : p.1 = k
    · have hp : p = (k, i) := by
        rcases List.mem_cons.mp hmem with h | h
        · exact h.symm
        · exfalso
          apply hk'
          rw [hpk]
          exact List.mem_map.mpr ⟨(k, i), h, rfl⟩
      refine ⟨[], rest, by simp [hp], ?_, by simp⟩
      simp [mapDelete, List.eraseP_cons_of_pos, hpk]
    · have hmem' : (k, i) ∈ rest := by
        rcases List.mem_cons.mp hmem with h | h
        · exact absurd (congrArg Prod.fst h).symm hpk
        · exact h
      obtain ⟨m1, m2, hme, hd, hk1⟩ := ih hmem' hknd
      refine ⟨p :: m1, m2, by simp [hme], ?_, ?_⟩
      · have : mapDelete (p :: rest) k = p :: mapDelete rest k := by
          simp [mapDelete, List.eraseP_cons_of_neg, hpk]
        rw [this, hd]
        simp
      · simp only [List.map_cons, List.mem_cons]
        rintro (h | h)
        · exact hpk h.symm
        · exact hk1 h

theorem models_evictTail (c : LRUCache K V) (s : MState K V) (hM : Models c s)
    (hne : s.entries ≠ []) :
    Models c.evictTail
      { s with entries := s.entries.dropLast, evictions := s.evictions + 1 } := by
  obtain ⟨ids, hInv, hcorr, hcap, hhits, hmisses, hevt⟩ := hM
  have hidsne : ids ≠ [] := by
    intro h
    rw [h] at hcorr
    exact hne (by cases s.entries <;> simp_all)
  obtain ⟨front, t, hc⟩ := (List.eq_nil_or_concat ids).resolve_left hidsne
  rw [List.concat_eq_append] at hc
  subst hc
  obtain ⟨l0, e, hl0⟩ := (List.eq_nil_or_concat s.entries).resolve_left hne
  rw [List.concat_eq_append] at hl0
  have hlen : front.length = l0.length := by
    have := congrArg List.length hcorr
    rw [hl0] at this
    simpa using this
  have hsplit : front.map c.entryAt = l0.map some ∧ c.entryAt t = some e := by
    rw [hl0] at hcorr
    simp only [List.map_append, List.map_cons, List.map_nil] at hcorr
    have := List.append_inj hcorr (by simpa using hlen)
    refine ⟨this.1, ?_⟩
    have := this.2
    simpa using this
  obtain ⟨hfrontcorr, hte⟩ := hsplit
  obtain ⟨kt, vt⟩ := e
  obtain ⟨tn, htn, htk, htv⟩ := (entryAt_some_iff c t kt vt).mp hte
  -- the (kt, t) pair is in the index
  have htpair : (kt, t) ∈ c.cache := by
    have hlk : c.lookup kt = some t :=
      (inv_lookup_iff c (front ++ [t]) hInv kt t).mpr
        ⟨by simp, by simp [keyAt_eq_map, hte]⟩
    exact (mapFind_eq_some c.cache kt t hInv.hkeys).mp hlk
  obtain ⟨hnd, hhead, htail, hseg, hsize, hperm, hpairs, hkeys, hfresh⟩ := hInv
  have htail' : c.tail = some t := by rw [htail]; simp
  obtain ⟨hseg', hhead', htail', hentry', ⟨n0, hn0, hclr⟩, hcache', hsize', hcap',
    hhits', hmisses', hevt', hnid'⟩ := removeNode_spec c front [] t hnd hseg hhead htail
  obtain ⟨m1, m2, hcdec, hcdel, hkm1⟩ := mapDelete_decomp c.cache kt t htpair hkeys
  have hstep : c.evictTail =
      { (c.removeNode t) with
          cache := mapDelete (c.removeNode t).cache kt,
          size := (c.removeNode t).size - 1,
          evictions := (c.removeNode t).evictions + 1 } := by
    have ht2 : c.tail = some t := by rw [htail]; simp
    simp [LRUCache.evictTail, ht2, htn, htk]
  have hfnd : (front ++ [t]).Nodup := hnd
  have hfront_nd : front.Nodup := (List.nodup_append.mp hfnd).1
  have hcachedel : (c.evictTail).cache = m1 ++ m2 := by
    rw [hstep]
    simp only [hcache']
    rw [hcdel]
  refine ⟨front, ⟨hfront_nd, ?_, ?_, ?_, ?_, ?_, ?_, ?_, ?_⟩, ?_, ?_, ?_, ?_, ?_⟩
  · rw [hstep]
    show (c.removeNode t).head = headOr front none
    simpa using hhead'
  · rw [hstep]
    show (c.removeNode t).tail = lastOr front none
    simpa using htail'
  · rw [hstep]
    show Seg (c.removeNode t).nodes none front none
    simpa using hseg'
  · rw [hstep]
    show (c.removeNode t).size - 1 = front.length
    rw [hsize', hsize]
    simp
  · rw [hcachedel]
    have hpermA : List.Perm ((m1 ++ (kt, t) :: m2).map Prod.snd) (front ++ [t]) := by
      rw [← hcdec]; exact hperm
    have h1 : List.Perm ((m1.map Prod.snd) ++ t :: (m2.map Prod.snd))
        (t :: (m1.map Prod.snd ++ m2.map Prod.snd)) := List.perm_middle
    have h2 : List.Perm (front ++ [t]) (t :: front) := List.perm_append_singleton t front
    have h3 : List.Perm (t :: (m1.map Prod.snd ++ m2.map Prod.snd)) (t :: front) := by
      refine (h1.symm.trans ?_).trans h2
      simpa [List.map_append] using hpermA
    have := h3.cons_inv
    simpa [List.map_append] using this
  · rw [hcachedel, hstep]
    intro p hp
    have hpm : p ∈ c.cache := by
      rw [hcdec]
      rcases List.mem_append.mp hp with h | h
      · exact List.mem_append.mpr (Or.inl h)
      · exact List.mem_append.mpr (Or.inr (List.mem_cons_of_mem _ h))
    exact pairs_transfer c (c.removeNode t) hentry' c.cache hpairs p hpm
  · rw [hcachedel]
    have hsub : (m1 ++ m2).Sublist (m1 ++ (kt, t) :: m2) :=
      List.Sublist.append_left (List.sublist_cons_self (kt, t) m2) m1
    have := (hsub.map Prod.fst).nodup
    rw [← hcdec] at this
    exact this hkeys
  · intro j hj
    rw [hstep]
    show j < (c.removeNode t).nextId
    rw [hnid']
    exact hfresh j (by simp [hj])
  · rw [hl0]
    have hdrop : (l0 ++ [(kt, vt)]).dropLast = l0 := by simp
    rw [hdrop]
    have hmc : front.map (c.evictTail).entryAt = front.map c.entryAt := by
      refine List.map_congr_left fun j _ => ?_
      rw [hstep]
      show (c.removeNode t).entryAt j = c.entryAt j
      exact hentry' j
    rw [hmc, hfrontcorr]
  · rw [hstep]
    show (c.removeNode t).capacity = s.capacity
    rw [hcap']; exact hcap
  · rw [hstep]
    show (c.removeNode t).hits = s.hits
    rw [hhits']; exact hhits
  · rw [hstep]
    show (c.removeNode t).misses = s.misses
    rw [hmisses']; exact hmisses
  · rw [hstep]
    show (c.removeNode t).evictions + 1 = s.evictions + 1
    rw [hevt', hevt]

theorem models_put (c : LRUCache K V) (s : MState K V) (k : K) (v : V)
    (hM : Models c s) : Models (c.put k v) (s.mput k v) := by
  obtain ⟨ids, hInv, hcorr, hcap, hhits, hmisses, hevt⟩ := hM
  cases hl : c.lookup k with
  | some i =>
    -- overwrite path
    obtain ⟨hi, v0, he⟩ := inv_lookup_entry c ids hInv k i hl
    obtain ⟨hfind, herase⟩ := corr_find c ids s.entries hcorr
      (inv_keyAt_nodup c ids hInv) i k v0 hi he
    have hfindE : s.findEntry k = some (k, v0) := hfind
    obtain ⟨n, hn, hnk, hnv⟩ := (entryAt_some_iff c i k v0).mp he
    have hstep : c.put k v = (c.setNode i { n with value := v }).moveToHead i := by
      simp [LRUCache.put, hl, hn]
    have hc1nodes : ∀ j, (c.setNode i { n with value := v }).nodes j =
        if j = i then some { n with value := v } else c.nodes j := by
      intro j; simp [LRUCache.setNode, updFn]
    have hc1entry : ∀ j, (c.setNode i { n with value := v }).entryAt j =
        if j = i then some (n.key, v) else c.entryAt j := by
      intro j
      by_cases hji : j = i <;> simp [LRUCache.entryAt, hc1nodes, hji]
    have hInv1 : Inv (c.setNode i { n with value := v }) ids := by
      obtain ⟨hnd, hh, ht, hs, hsz, hpm, hpr, hk2, hf⟩ := hInv
      refine ⟨hnd, hh, ht, ?_, hsz, hpm, ?_, hk2, hf⟩
      · refine seg_congr (fun j hj m hm => ?_) hs
        by_cases hji : j = i
        · subst hji
          have hmn : m = n := by rw [hn] at hm; exact (Option.some.inj hm).symm
          exact ⟨{ n with value := v }, by simp [hc1nodes], by simp [hmn], by simp [hmn]⟩
        · exact ⟨m, by simp [hc1nodes, hji, hm], rfl, rfl⟩
      · intro p hp
        obtain ⟨m, hm, hkm⟩ := hpr p hp
        by_cases hpi : p.2 = i
        · refine ⟨{ n with value := v }, by rw [hpi]; simp [hc1nodes], ?_⟩
          have hmn : m = n := by
            rw [hpi, hn] at hm
            exact (Option.some.inj hm).symm
          simpa [hmn] using hkm
        · exact ⟨m, by simp [hc1nodes, hpi, hm], hkm⟩
    obtain ⟨hInv2, hentry2, hcache2, hsize2, hcap2, hhits2, hmisses2, hevt2, hnid2⟩ :=
      inv_moveToHead (c.setNode i { n with value := v }) ids i hInv1 hi
    rw [hstep]
    have hmput : s.mput k v = { s with entries := (k, v) :: MState.eraseKey s.entries k } := by
      simp [MState.mput, hfindE]
    rw [hmput]
    refine ⟨i :: ids.erase i, hInv2, ?_, ?_, ?_, ?_, ?_⟩
    · simp only [List.map_cons]
      have h1 : ((c.setNode i { n with value := v }).moveToHead i).entryAt i = some (k, v) := by
        rw [hentry2 i, hc1entry i]
        simp [hnk]
      have h2 : (ids.erase i).map ((c.setNode i { n with value := v }).moveToHead i).entryAt =
          (MState.eraseKey s.entries k).map some := by
        have hmc : (ids.erase i).map ((c.setNode i { n with value := v }).moveToHead i).entryAt =
            (ids.erase i).map c.entryAt := by
          refine List.map_congr_left fun j hj => ?_
          have hji : j ≠ i := (hInv.nodup.mem_erase_iff.mp hj).1
          rw [hentry2 j, hc1entry j]
          simp [hji]
        rw [hmc, herase]
      rw [h1, h2]
    · rw [hcap2]
      simpa [LRUCache.setNode] using hcap
    · rw [hhits2]
      simpa [LRUCache.setNode] using hhits
    · rw [hmisses2]
      simpa [LRUCache.setNode] using hmisses
    · rw [hevt2]
      simpa [LRUCache.setNode] using hevt
  | none =>
    -- insert path
    have hfind : s.findEntry k = none := corr_lookup_none c ids s.entries hInv hcorr k hl
    have hknot : ∀ p ∈ c.cache, p.1 ≠ k := by
      intro p hp
      have := (mapFind_eq_none c.cache k).mp (by simpa [LRUCache.lookup] using hl)
      exact this p hp
    have hfnone : c.cache.find? (fun p => decide (p.1 = k)) = none := by
      rw [List.find?_eq_none]
      intro p hp
      simpa using hknot p hp
    have hmapset : mapSet c.cache k c.nextId = c.cache ++ [(k, c.nextId)] := by
      simp [mapSet, hfnone]
    set nn : LRUNode K V := { key := k, value := v, prev := none, next := none } with hnn
    set cbase : LRUCache K V :=
      { c with
          nodes := updFn c.nodes c.nextId (some nn),
          nextId := c.nextId + 1,
          cache := c.cache ++ [(k, c.nextId)] } with hcbase
    set cmid : LRUCache K V := cbase.addToHead c.nextId with hcmid
    have hstep : c.put k v =
        (if (((cmid.size + 1 : Nat) : ℚ) > cmid.capacity)
         then LRUCache.evictTail { cmid with size := cmid.size + 1 }
         else { cmid with size := cmid.size + 1 }) := by
      simp [LRUCache.put, hl, hmapset, hcmid, hcbase, hnn]
    have hini : c.nextId ∉ ids := fun hm => absurd (hInv.hfresh c.nextId hm) (lt_irrefl _)
    have hsegb : Seg cbase.nodes none ids none := by
      refine seg_congr_eq (fun j hj => ?_) hInv.hseg
      have hji : ¬(j = c.nextId) := fun e => hini (e ▸ hj)
      simp [hcbase, updFn, hji]
    have hheadb : cbase.head = headOr ids none := hInv.hhead
    have htailb : cbase.tail = lastOr ids none := hInv.htail
    have hnb : cbase.nodes c.nextId = some nn := by simp [hcbase, updFn]
    obtain ⟨hsegm, hheadm, htailm, hentrym, hcachem, hsizem, hcapm, hhitsm, hmissesm,
      hevtm, hnidm⟩ := addToHead_spec cbase ids c.nextId nn hInv.nodup hini hnb
        hsegb hheadb htailb
    -- entries of cbase agree with c away from the fresh id
    have hentryb : ∀ j, j ≠ c.nextId → cbase.entryAt j = c.entryAt j := by
      intro j hj
      simp [LRUCache.entryAt, hcbase, updFn, hj]
    have hentrybi : cbase.entryAt c.nextId = some (k, v) := by
      simp [LRUCache.entryAt, hcbase, updFn, hnn]
    have hcapmc : cmid.capacity = s.capacity := by
      rw [hcapm]
      simpa [hcbase] using hcap
    -- pairs for the base state
    have hpairsb : ∀ p ∈ cbase.cache, ∃ m, cbase.nodes p.2 = some m ∧ m.key = p.1 := by
      intro p hp
      have hp' : p ∈ c.cache ++ [(k, c.nextId)] := by simpa [hcbase] using hp
      rcases List.mem_append.mp hp' with hmem | hmem
      · have hpid : p.2 ∈ ids :=
          hInv.hperm.mem_iff.mp (List.mem_map_of_mem Prod.snd hmem)
        have hpne : ¬(p.2 = c.nextId) := fun e => hini (e ▸ hpid)
        obtain ⟨m, hm, hkm⟩ := hInv.hpairs p hmem
        exact ⟨m, by simp [hcbase, updFn, hpne, hm], hkm⟩
      · have hpeq : p = (k, c.nextId) := by simpa using hmem
        subst hpeq
        exact ⟨nn, by simp [hcbase, updFn], by simp [hnn]⟩
    -- the invariant for the incremented state
    have hInv4 : Inv { cmid with size := cmid.size + 1 } (c.nextId :: ids) := by
      refine ⟨List.nodup_cons.mpr ⟨hini, hInv.nodup⟩, hheadm, htailm, hsegm, ?_, ?_, ?_, ?_, ?_⟩
      · show cmid.size + 1 = (c.nextId :: ids).length
        rw [hsizem]
        show c.size + 1 = ids.length + 1
        rw [hInv.hsize]
      · show ((cmid.cache.map Prod.snd).Perm (c.nextId :: ids))
        rw [hcachem]
        have hp1 : List.Perm ((c.cache.map Prod.snd) ++ [c.nextId])
            (c.nextId :: c.cache.map Prod.snd) := List.perm_append_singleton _ _
        have hp2 : List.Perm (c.nextId :: c.cache.map Prod.snd) (c.nextId :: ids) :=
          hInv.hperm.cons _
        have : cbase.cache.map Prod.snd = (c.cache.map Prod.snd) ++ [c.nextId] := by
          simp [hcbase]
        rw [this]
        exact hp1.trans hp2
      · show ∀ p ∈ cmid.cache, ∃ m, cmid.nodes p.2 = some m ∧ m.key = p.1
        rw [hcachem]
        exact pairs_transfer cbase cmid hentrym cbase.cache hpairsb
      · show (cmid.cache.map Prod.fst).Nodup
        rw [hcachem]
        have hknotin : k ∉ c.cache.map Prod.fst := by
          intro hmem
          obtain ⟨p, hp, hpk⟩ := List.mem_map.mp hmem
          exact hknot p hp hpk
        have hpermk : List.Perm ((c.cache.map Prod.fst) ++ [k])
            (k :: c.cache.map Prod.fst) := List.perm_append_singleton _ _
        have : cbase.cache.map Prod.fst = (c.cache.map Prod.fst) ++ [k] := by
          simp [hcbase]
        rw [this]
        exact hpermk.nodup_iff.mpr (List.nodup_cons.mpr ⟨hknotin, hInv.hkeys⟩)
      · intro j hj
        show j < cmid.nextId
        rw [hnidm]
        have : cbase.nextId = c.nextId + 1 := by simp [hcbase]
        rw [this]
        rcases List.mem_cons.mp hj with rfl | hj'
        · exact Nat.lt_succ_self _
        · exact Nat.lt_succ_of_lt (hInv.hfresh j hj')
    have hcorr4 : (c.nextId :: ids).map ({ cmid with size := cmid.size + 1 } :
          LRUCache K V).entryAt = ((k, v) :: s.entries).map some := by
      simp only [List.map_cons]
      have h1 : ({ cmid with size := cmid.size + 1 } : LRUCache K V).entryAt c.nextId =
          some (k, v) := by
        show cmid.entryAt c.nextId = some (k, v)
        rw [hentrym c.nextId]
        exact hentrybi
      have h2 : ids.map ({ cmid with size := cmid.size + 1 } : LRUCache K V).entryAt =
          s.entries.map some := by
        have : ids.map ({ cmid with size := cmid.size + 1 } : LRUCache K V).entryAt =
            ids.map c.entryAt := by
          refine List.map_congr_left fun j hj => ?_
          have hjne : j ≠ c.nextId := fun e => hini (e ▸ hj)
          show cmid.entryAt j = c.entryAt j
          rw [hentrym j]
          exact hentryb j hjne
        rw [this, hcorr]
      rw [h1, h2]
    have hM4 : Models ({ cmid with size := cmid.size + 1 } : LRUCache K V)
        ⟨s.capacity, (k, v) :: s.entries, s.hits, s.misses, s.evictions⟩ := by
      refine ⟨c.nextId :: ids, hInv4, hcorr4, ?_, ?_, ?_, ?_⟩
      · exact hcapmc
      · show cmid.hits = s.hits
        rw [hhitsm]
        simpa [hcbase] using hhits
      · show cmid.misses = s.misses
        rw [hmissesm]
        simpa [hcbase] using hmisses
      · show cmid.evictions = s.evictions
        rw [hevtm]
        simpa [hcbase] using hevt
    have hsz4 : cmid.size + 1 = ((k, v) :: s.entries).length := by
      have := models_size _ _ hM4
      simpa using this
    by_cases hover : (((cmid.size + 1 : Nat) : ℚ) > cmid.capacity)
    · -- one eviction
      have hcond : ((((k, v) :: s.entries).length : Nat) : ℚ) > s.capacity := by
        rw [← hsz4, ← hcapmc]
        exact hover
      rw [hstep, if_pos hover]
      have hev := models_evictTail _ _ hM4 (by simp)
      have hmput : s.mput k v =
          { s with entries := ((k, v) :: s.entries).dropLast,
                   evictions := s.evictions + 1 } := by
        have hcond' : s.capacity < (s.entries.length : ℚ) + 1 := by
          have h := hcond
          push_cast at h
          simpa using h
        simp [MState.mput, hfind, hcond']
      rw [hmput]
      exact hev
    · -- fits within capacity
      have hcond : ¬((((k, v) :: s.entries).length : Nat) : ℚ) > s.capacity := by
        rw [← hsz4, ← hcapmc]
        exact hover
      rw [hstep, if_neg hover]
      have hmput : s.mput k v = { s with entries := (k, v) :: s.entries } := by
        have hcond' : (s.entries.length : ℚ) + 1 ≤ s.capacity := by
          have h := not_lt.mp hcond
          push_cast at h
          simpa using h
        simp [MState.mput, hfind]
        exact hcond'
      rw [hmput]
      exact hM4

theorem models_delete (c : LRUCache K V) (s : MState K V) (k : K) (hM : Models c s) :
    (c.delete k).1 = (MState.mdelete s k).1 ∧
    Models (c.delete k).2 (MState.mdelete s k).2 := by
  obtain ⟨ids, hInv, hcorr, hcap, hhits, hmisses, hevt⟩ := hM
  cases hl : c.lookup k with
  | none =>
    have hfind : s.findEntry k = none := corr_lookup_none c ids s.entries hInv hcorr k hl
    have hstep : c.delete k = (false, c) := by simp [LRUCache.delete, hl]
    have hm : s.mdelete k = (false, s) := by simp [MState.mdelete, hfind]
    rw [hstep, hm]
    exact ⟨rfl, ⟨ids, hInv, hcorr, hcap, hhits, hmisses, hevt⟩⟩
  | some i =>
    obtain ⟨hi, v0, he⟩ := inv_lookup_entry c ids hInv k i hl
    obtain ⟨hfind, herase⟩ := corr_find c ids s.entries hcorr
      (inv_keyAt_nodup c ids hInv) i k v0 hi he
    have hfindE : s.findEntry k = some (k, v0) := hfind
    have hkp : (k, i) ∈ c.cache := (mapFind_eq_some c.cache k i hInv.hkeys).mp hl
    obtain ⟨l1, l2, hc⟩ := List.append_of_mem hi
    have hil1 : i ∉ l1 := by
      have := hInv.nodup
      rw [hc] at this
      have hd := List.nodup_append.mp this
      exact fun hm => hd.2.2 hm (by simp)
    have herids : ids.erase i = l1 ++ l2 := by
      rw [hc, List.erase_append_right _ hil1, List.erase_cons_head]
    obtain ⟨hnd, hhead, htail, hseg, hsize, hperm, hpairs, hkeys, hfresh⟩ := hInv
    rw [hc] at hnd hhead htail hseg hsize hperm hfresh
    obtain ⟨hseg', hhead', htail', hentry', ⟨n0, hn0, hclr⟩, hcache', hsize', hcap',
      hhits', hmisses', hevt', hnid'⟩ := removeNode_spec c l1 l2 i hnd hseg hhead htail
    obtain ⟨m1, m2, hcdec, hcdel, hkm1⟩ := mapDelete_decomp c.cache k i hkp hkeys
    have hstep : c.delete k = (true,
        { (c.removeNode i) with
            cache := mapDelete (c.removeNode i).cache k,
            size := (c.removeNode i).size - 1 }) := by
      simp [LRUCache.delete, hl]
    have hm : s.mdelete k = (true, { s with entries := MState.eraseKey s.entries k }) := by
      simp [MState.mdelete, hfindE]
    rw [hstep, hm]
    refine ⟨rfl, ?_⟩
    have hcachedel : mapDelete (c.removeNode i).cache k = m1 ++ m2 := by
      rw [hcache']; exact hcdel
    have hndrest : (l1 ++ l2).Nodup := by
      have hsub : (l1 ++ l2).Sublist (l1 ++ i :: l2) :=
        List.Sublist.append_left (List.sublist_cons_self i l2) l1
      exact hnd.sublist hsub
    refine ⟨l1 ++ l2, ⟨hndrest, ?_, ?_, ?_, ?_, ?_, ?_, ?_, ?_⟩, ?_, ?_, ?_, ?_, ?_⟩
    · exact hhead'
    · exact htail'
    · exact hseg'
    · show (c.removeNode i).size - 1 = (l1 ++ l2).length
      rw [hsize', hsize]
      simp
    · show ((mapDelete (c.removeNode i).cache k).map Prod.snd).Perm (l1 ++ l2)
      rw [hcachedel]
      have hpermA : List.Perm ((m1 ++ (k, i) :: m2).map Prod.snd) (l1 ++ i :: l2) := by
        rw [← hcdec]; exact hperm
      have h1 : List.Perm ((m1.map Prod.snd) ++ i :: (m2.map Prod.snd))
          (i :: (m1.map Prod.snd ++ m2.map Prod.snd)) := List.perm_middle
      have h2 : List.Perm (l1 ++ i :: l2) (i :: (l1 ++ l2)) := List.perm_middle
      have h3 : List.Perm (i :: (m1.map Prod.snd ++ m2.map Prod.snd)) (i :: (l1 ++ l2)) := by
        refine (h1.symm.trans ?_).trans h2
        simpa [List.map_append] using hpermA
      have := h3.cons_inv
      simpa [List.map_append] using this
    · show ∀ p ∈ mapDelete (c.removeNode i).cache k,
        ∃ n, (c.removeNode i).nodes p.2 = some n ∧ n.key = p.1
      rw [hcachedel]
      intro p hp
      have hpm : p ∈ c.cache := by
        rw [hcdec]
        rcases List.mem_append.mp hp with h | h
        · exact List.mem_append.mpr (Or.inl h)
        · exact List.mem_append.mpr (Or.inr (List.mem_cons_of_mem _ h))
      exact pairs_transfer c (c.removeNode i) hentry' c.cache hpairs p hpm
    · show ((mapDelete (c.removeNode i).cache k).map Prod.fst).Nodup
      rw [hcachedel]
      have hsub : (m1 ++ m2).Sublist (m1 ++ (k, i) :: m2) :=
        List.Sublist.append_left (List.sublist_cons_self (k, i) m2) m1
      have := (hsub.map Prod.fst).nodup
      rw [← hcdec] at this
      exact this hkeys
    · intro j hj
      show j < (c.removeNode i).nextId
      rw [hnid']
      exact hfresh j (by
        rcases List.mem_append.mp hj with h | h
        · exact List.mem_append.mpr (Or.inl h)
        · exact List.mem_append.mpr (Or.inr (List.mem_cons_of_mem _ h)))
    · show (l1 ++ l2).map (c.removeNode i).entryAt = (MState.eraseKey s.entries k).map some
      have hmc : (l1 ++ l2).map (c.removeNode i).entryAt = (l1 ++ l2).map c.entryAt :=
        List.map_congr_left fun j _ => hentry' j
      rw [hmc, ← herids, herase]
    · show (c.removeNode i).capacity = s.capacity
      rw [hcap']; exact hcap
    · show (c.removeNode i).hits = s.hits
      rw [hhits']; exact hhits
    · show (c.removeNode i).misses = s.misses
      rw [hmisses']; exact hmisses
    · show (c.removeNode i).evictions = s.evictions
      rw [hevt']; exact hevt

theorem models_clear (c : LRUCache K V) (s : MState K V) (hM : Models c s) :
    Models c.clear s.mclear := by
  obtain ⟨ids, hInv, hcorr, hcap, hhits, hmisses, hevt⟩ := hM
  refine ⟨[], ⟨?_, ?_, ?_, ?_, ?_, ?_, ?_, ?_, ?_⟩, ?_, ?_, ?_, ?_, ?_⟩ <;>
    simp [LRUCache.clear, MState.mclear, hcap]

theorem models_applyOp (c : LRUCache K V) (s : MState K V) (op : Op K V)
    (hM : Models c s) : Models (applyOp c op) (mapplyOp s op) := by
  cases op with
  | get k => exact (models_get c s k hM).2
  | put k v => exact models_put c s k v hM
  | delete k => exact (models_delete c s k hM).2
  | clear => exact models_clear c s hM
  | peek k => exact hM
  | has k => exact hM
  | resetStats =>
    obtain ⟨ids, hInv, hcorr, hcap, hhits, hmisses, hevt⟩ := hM
    exact ⟨ids, inv_counters c ids hInv 0 0 0, hcorr, hcap, rfl, rfl, rfl⟩

theorem models_init (K V : Type) [DecidableEq K] (cap : ℚ) :
    Models (initCache K V cap) (initM K V cap) := by
  refine ⟨[], ⟨?_, ?_, ?_, ?_, ?_, ?_, ?_, ?_, ?_⟩, ?_, ?_, ?_, ?_, ?_⟩ <;>
    simp [initCache, initM]

theorem models_run (c : LRUCache K V) (s : MState K V) (ops : List (Op K V))
    (hM : Models c s) : Models (run c ops) (mrun s ops) := by
  induction ops generalizing c s with
  | nil => exact hM
  | cons op rest ih =>
    have h1 : run c (op :: rest) = run (applyOp c op) rest := rfl
    have h2 : mrun s (op :: rest) = mrun (mapplyOp s op) rest := rfl
    rw [h1, h2]
    exact ih _ _ (models_applyOp c s op hM)

theorem models_lookup_isSome (c : LRUCache K V) (s : MState K V) (k : K)
    (hM : Models c s) : (c.lookup k).isSome = (s.findEntry k).isSome := by
  obtain ⟨ids, hInv, hcorr, hcap, hhits, hmisses, hevt⟩ := hM
  cases hl : c.lookup k with
  | none =>
    have hfind : s.findEntry k = none :=
      corr_lookup_none c ids s.entries ⟨hInv.nodup, hInv.hhead, hInv.htail, hInv.hseg,
        hInv.hsize, hInv.hperm, hInv.hpairs, hInv.hkeys, hInv.hfresh⟩ hcorr k hl
    simp [hfind]
  | some i =>
    obtain ⟨hi, v0, he⟩ := inv_lookup_entry c ids hInv k i hl
    obtain ⟨hfind, -⟩ := corr_find c ids s.entries hcorr
      (inv_keyAt_nodup c ids hInv) i k v0 hi he
    have : s.findEntry k = some (k, v0) := hfind
    simp [this]

theorem models_has (c : LRUCache K V) (s : MState K V) (k : K) (hM : Models c s) :
    c.has k = (s.findEntry k).isSome := by
  rw [has_eq_lookup]
  exact models_lookup_isSome c s k hM

theorem models_getMostRecent (c : LRUCache K V) (s : MState K V) (hM : Models c s) :
    c.getMostRecent = s.entries.head? := by
  obtain ⟨ids, hInv, hcorr, -, -, -, -⟩ := hM
  cases hids : ids with
  | nil =>
    have hh : c.head = none := by rw [hInv.hhead, hids]; rfl
    have hent : s.entries = [] := by
      rw [hids] at hcorr
      simpa using hcorr.symm
    simp [LRUCache.getMostRecent, hh, hent]
  | cons i rest =>
    have hh : c.head = some i := by rw [hInv.hhead, hids]; rfl
    rw [hids] at hcorr
    cases hent : s.entries with
    | nil => rw [hent] at hcorr; simp at hcorr
    | cons e l' =>
      rw [hent] at hcorr
      simp only [List.map_cons, List.cons.injEq] at hcorr
      have he : c.entryAt i = some e := hcorr.1
      obtain ⟨n, hn, hk, hv⟩ := (entryAt_some_iff c i e.1 e.2).mp (by simpa using he)
      simp [LRUCache.getMostRecent, hh, hn, hk, hv]

theorem models_getLeastRecent (c : LRUCache K V) (s : MState K V) (hM : Models c s) :
    c.getLeastRecent = s.entries.getLast? := by
  obtain ⟨ids, hInv, hcorr, -, -, -, -⟩ := hM
  rcases List.eq_nil_or_concat ids with hids | ⟨front, t, hids⟩
  · have ht : c.tail = none := by rw [hInv.htail, hids]; rfl
    have hent : s.entries = [] := by
      rw [hids] at hcorr
      simpa using hcorr.symm
    simp [LRUCache.getLeastRecent, ht, hent]
  · rw [List.concat_eq_append] at hids
    have ht : c.tail = some t := by rw [hInv.htail, hids]; simp
    have hne : s.entries ≠ [] := by
      intro h
      rw [hids, h] at hcorr
      simp at hcorr
    obtain ⟨l0, e, hl0⟩ := (List.eq_nil_or_concat s.entries).resolve_left hne
    rw [List.concat_eq_append] at hl0
    rw [hids, hl0] at hcorr
    have hlen : front.length = l0.length := by
      have := congrArg List.length hcorr
      simpa using this
    simp only [List.map_append, List.map_cons, List.map_nil] at hcorr
    have hsplit := List.append_inj hcorr (by simpa using hlen)
    have hte : c.entryAt t = some e := by
      have := hsplit.2
      simpa using this
    obtain ⟨n, hn, hk, hv⟩ := (entryAt_some_iff c t e.1 e.2).mp (by simpa using hte)
    rw [hl0]
    simp [LRUCache.getLeastRecent, ht, hn, hk, hv]

theorem chainWalk_eq (nodes : Nat → Option (LRUNode K V)) (ids : List Nat)
    (p : Option Nat) (hseg : Seg nodes p ids none) :
    LRUCache.chainWalk nodes (headOr ids none) ids.length = ids := by
  induction ids generalizing p with
  | nil => rfl
  | cons i rest ih =>
    obtain ⟨⟨n, hn, hprev, hnext⟩, hrest⟩ := hseg
    simp only [headOr_cons, List.length_cons, LRUCache.chainWalk]
    rw [hn]
    show i :: LRUCache.chainWalk nodes n.next rest.length = i :: rest
    rw [hnext]
    exact congrArg (i :: ·) (ih (some i) hrest)

theorem inv_chainIds (c : LRUCache K V) (ids : List Nat) (hInv : Inv c ids) :
    c.chainIds = ids := by
  rw [LRUCache.chainIds, hInv.hhead, hInv.hsize]
  exact chainWalk_eq c.nodes ids none hInv.hseg

/-- The mutual-consistency property of claim C1, phrased over the
executable chain walk: the index maps a key to a node exactly when that
node is reachable in the head-to-tail chain and carries the key, and the
size agrees with the number of index entries and of chain nodes. -/
def Consistent (c : LRUCache K V) : Prop :=
  (∀ k i, c.lookup k = some i ↔ (i ∈ c.chainIds ∧ c.keyAt i = some k)) ∧
  c.size = c.cache.length ∧ c.size = c.chainIds.length

theorem inv_consistent (c : LRUCache K V) (ids : List Nat) (hInv : Inv c ids) :
    Consistent c := by
  have hc := inv_chainIds c ids hInv
  refine ⟨fun k i => by rw [hc]; exact inv_lookup_iff c ids hInv k i, ?_, ?_⟩
  · have h1 := hInv.hperm.length_eq
    simp only [List.length_map] at h1
    rw [hInv.hsize, ← h1]
  · rw [hc, hInv.hsize]

theorem models_keys_nodup (c : LRUCache K V) (s : MState K V) (hM : Models c s) :
    (s.entries.map Prod.fst).Nodup := by
  obtain ⟨ids, hInv, hcorr, -, -, -, -⟩ := hM
  have h1 := inv_keyAt_nodup c ids hInv
  have h2 : ids.map c.keyAt = (s.entries.map Prod.fst).map some := by
    have : ids.map c.keyAt = (ids.map c.entryAt).map (Option.map Prod.fst) := by
      rw [List.map_map]
      exact List.map_congr_left fun j _ => keyAt_eq_map c j
    rw [this, hcorr, List.map_map, List.map_map]
    rfl
  rw [h2] at h1
  exact List.Nodup.of_map some h1

/-! ## Statistics accounting on the model -/

/-- The number of `get` calls since the last `clear` or `resetStats`,
starting from a count of `n` already accumulated. -/
def getsFold (n : Nat) : List (Op K V) → Nat
  | [] => n
  | op :: rest =>
    match op with
    | Op.get _ => getsFold (n + 1) rest
    | Op.clear => getsFold 0 rest
    | Op.resetStats => getsFold 0 rest
    | _ => getsFold n rest

theorem mapplyOp_counters (s : MState K V) (op : Op K V) :
    (mapplyOp s op).hits + (mapplyOp s op).misses =
      match op with
      | Op.get _ => s.hits + s.misses + 1
      | Op.clear => 0
      | Op.resetStats => 0
      | _ => s.hits + s.misses := by
  cases op with
  | get k =>
    simp only [mapplyOp, MState.mget]
    cases h : s.findEntry k with
    | none => simp; omega
    | some p => obtain ⟨k1, v1⟩ := p; simp; omega
  | put k v =>
    simp only [mapplyOp, MState.mput]
    by_cases h : (s.findEntry k).isSome <;> simp [h] <;> split <;> simp
  | delete k =>
    simp only [mapplyOp, MState.mdelete]
    by_cases h : (s.findEntry k).isSome <;> simp [h]
  | clear => rfl
  | peek k => rfl
  | has k => rfl
  | resetStats => rfl

theorem mrun_counters (ops : List (Op K V)) : ∀ s : MState K V,
    (mrun s ops).hits + (mrun s ops).misses = getsFold (s.hits + s.misses) ops := by
  induction ops with
  | nil => intro s; rfl
  | cons op rest ih =>
    intro s
    have hstep : mrun s (op :: rest) = mrun (mapplyOp s op) rest := rfl
    rw [hstep, ih]
    have hc := mapplyOp_counters s op
    cases op with
    | get k => rw [hc]; rfl
    | put k v => rw [hc]; rfl
    | delete k => rw [hc]; rfl
    | clear => rw [hc]; rfl
    | peek k => rw [hc]; rfl
    | has k => rw [hc]; rfl
    | resetStats => rw [hc]; rfl

/-! ## Size accounting on the model -/

theorem eraseKey_length (l : List (K × V)) (k : K)
    (h : (l.find? fun p => decide (p.1 = k)).isSome = true) :
    (MState.eraseKey l k).length + 1 = l.length := by
  obtain ⟨p, hp⟩ := Option.isSome_iff_exists.mp h
  have hmem := List.mem_of_find?_eq_some hp
  have hpred := List.find?_some hp
  rw [MState.eraseKey, List.length_eraseP_add_one hmem hpred]

theorem mapplyOp_capacity (s : MState K V) (op : Op K V) :
    (mapplyOp s op).capacity = s.capacity := by
  cases op with
  | get k =>
    simp only [mapplyOp, MState.mget]
    cases h : s.findEntry k with
    | none => rfl
    | some p => obtain ⟨k1, v1⟩ := p; rfl
  | put k v =>
    simp only [mapplyOp, MState.mput]
    by_cases h : (s.findEntry k).isSome
    · simp [h]
    · rw [if_neg h]
      split <;> rfl
  | delete k =>
    simp only [mapplyOp, MState.mdelete]
    by_cases h : (s.findEntry k).isSome <;> simp [h]
  | clear => rfl
  | peek k => rfl
  | has k => rfl
  | resetStats => rfl

theorem mrun_capacity (ops : List (Op K V)) : ∀ s : MState K V,
    (mrun s ops).capacity = s.capacity := by
  induction ops with
  | nil => intro s; rfl
  | cons op rest ih =>
    intro s
    have hstep : mrun s (op :: rest) = mrun (mapplyOp s op) rest := rfl
    rw [hstep, ih, mapplyOp_capacity]

theorem mapplyOp_length_le (s : MState K V) (op : Op K V)
    (h : (s.entries.length : ℚ) ≤ s.capacity) :
    ((mapplyOp s op).entries.length : ℚ) ≤ (mapplyOp s op).capacity := by
  have hcap0 : (0 : ℚ) ≤ s.capacity := le_trans (by positivity) h
  rw [mapplyOp_capacity]
  cases op with
  | get k =>
    simp only [mapplyOp, MState.mget]
    cases hf : s.findEntry k with
    | none => exact h
    | some p =>
      obtain ⟨k1, v1⟩ := p
      have hlen := eraseKey_length s.entries k (by rw [MState.findEntry] at hf; simp [hf])
      simp only [List.length_cons]
      rw [show (MState.eraseKey s.entries k).length + 1 = s.entries.length from hlen]
      exact h
  | put k v =>
    simp only [mapplyOp, MState.mput]
    by_cases hf : (s.findEntry k).isSome
    · have hlen := eraseKey_length s.entries k (by rw [MState.findEntry] at hf; exact hf)
      simp only [hf, if_true, List.length_cons]
      rw [show (MState.eraseKey s.entries k).length + 1 = s.entries.length from hlen]
      exact h
    · simp only [hf, if_false, Bool.false_eq_true]
      split
      · simp only [List.length_dropLast, List.length_cons]
        simpa using h
      · rename_i hfits
        push_neg at hfits
        exact hfits
  | delete k =>
    simp only [mapplyOp, MState.mdelete]
    by_cases hf : (s.findEntry k).isSome <;> simp only [hf, if_true, if_false]
    · have hle : (MState.eraseKey s.entries k).length ≤ s.entries.length :=
        (List.eraseP_sublist s.entries).length_le
      calc ((MState.eraseKey s.entries k).length : ℚ) ≤ (s.entries.length : ℚ) := by
            exact_mod_cast hle
        _ ≤ s.capacity := h
    · simpa using h
  | clear => exact hcap0
  | peek k => exact h
  | has k => exact h
  | resetStats => exact h

theorem mrun_length_le (ops : List (Op K V)) : ∀ s : MState K V,
    (s.entries.length : ℚ) ≤ s.capacity →
    ((mrun s ops).entries.length : ℚ) ≤ (mrun s ops).capacity := by
  induction ops with
  | nil => intro s h; exact h
  | cons op rest ih =>
    intro s h
    have hstep : mrun s (op :: rest) = mrun (mapplyOp s op) rest := rfl
    rw [hstep]
    exact ih _ (mapplyOp_length_le s op h)

/-- Counts of insertions (puts of an absent key), successful deletions and
evictions performed by an operation sequence, all counted since the last
`clear`; the counting replays the recency model alongside. -/
def countsAux (s : MState K V) (acc : Nat × Nat × Nat) :
    List (Op K V) → Nat × Nat × Nat
  | [] => acc
  | op :: rest =>
    let acc2 :=
      match op with
      | Op.put k _ =>
        if (s.findEntry k).isSome then acc
        else if ((s.entries.length + 1 : Nat) : ℚ) > s.capacity then
          (acc.1 + 1, acc.2.1, acc.2.2 + 1)
        else (acc.1 + 1, acc.2.1, acc.2.2)
      | Op.delete k => if (s.findEntry k).isSome then (acc.1, acc.2.1 + 1, acc.2.2) else acc
      | Op.clear => (0, 0, 0)
      | _ => acc
    countsAux (mapplyOp s op) acc2 rest

theorem countsAux_spec (ops : List (Op K V)) : ∀ (s : MState K V) (acc : Nat × Nat × Nat),
    s.entries.length + acc.2.1 + acc.2.2 = acc.1 →
    (mrun s ops).entries.length + (countsAux s acc ops).2.1 + (countsAux s acc ops).2.2 =
      (countsAux s acc ops).1 := by
  induction ops with
  | nil => intro s acc h; exact h
  | cons op rest ih =>
    intro s acc h
    have hstep : mrun s (op :: rest) = mrun (mapplyOp s op) rest := rfl
    rw [hstep]
    cases op with
    | get k =>
      have hacc : countsAux s acc (Op.get k :: rest) =
          countsAux (mapplyOp s (Op.get k)) acc rest := by
        simp [countsAux]
      rw [hacc]
      refine ih _ acc ?_
      simp only [mapplyOp, MState.mget]
      cases hf : s.findEntry k with
      | none => exact h
      | some p =>
        obtain ⟨k1, v1⟩ := p
        have hlen := eraseKey_length s.entries k (by rw [MState.findEntry] at hf; simp [hf])
        simp only [List.length_cons]
        rw [show (MState.eraseKey s.entries k).length + 1 = s.entries.length from hlen]
        exact h
    | put k v =>
      by_cases hf : (s.findEntry k).isSome
      · have hlen := eraseKey_length s.entries k (by rw [MState.findEntry] at hf; exact hf)
        have hacc : countsAux s acc (Op.put k v :: rest) =
            countsAux (mapplyOp s (Op.put k v)) acc rest := by
          simp [countsAux, hf]
        rw [hacc]
        refine ih _ acc ?_
        simp only [mapplyOp, MState.mput, hf, if_true, List.length_cons]
        rw [show (MState.eraseKey s.entries k).length + 1 = s.entries.length from hlen]
        exact h
      · by_cases hov : (((s.entries.length + 1 : Nat) : ℚ) > s.capacity)
        · have hov' : s.capacity < (s.entries.length : ℚ) + 1 := by
            push_cast at hov
            simpa using hov
          have hacc : countsAux s acc (Op.put k v :: rest) =
              countsAux (mapplyOp s (Op.put k v)) (acc.1 + 1, acc.2.1, acc.2.2 + 1) rest := by
            simp [countsAux, hf, hov']
          rw [hacc]
          refine ih _ _ ?_
          simp only [mapplyOp, MState.mput, hf, if_false, Bool.false_eq_true]
          rw [if_pos (by simpa using hov)]
          simp only [List.length_dropLast, List.length_cons]
          omega
        · have hov' : ¬(s.capacity < (s.entries.length : ℚ) + 1) := by
            push_cast at hov
            simpa using hov
          have hacc : countsAux s acc (Op.put k v :: rest) =
              countsAux (mapplyOp s (Op.put k v)) (acc.1 + 1, acc.2.1, acc.2.2) rest := by
            simp [countsAux, hf, hov']
          rw [hacc]
          refine ih _ _ ?_
          simp only [mapplyOp, MState.mput, hf, if_false, Bool.false_eq_true]
          rw [if_neg (by simpa using hov)]
          simp only [List.length_cons]
          omega
    | delete k =>
      by_cases hf : (s.findEntry k).isSome
      · have hlen := eraseKey_length s.entries k (by rw [MState.findEntry] at hf; exact hf)
        have hacc : countsAux s acc (Op.delete k :: rest) =
            countsAux (mapplyOp s (Op.delete k)) (acc.1, acc.2.1 + 1, acc.2.2) rest := by
          simp [countsAux, hf]
        rw [hacc]
        refine ih _ _ ?_
        simp only [mapplyOp, MState.mdelete, hf, if_true]
        omega
      · have hacc : countsAux s acc (Op.delete k :: rest) =
            countsAux (mapplyOp s (Op.delete k)) acc rest := by
          simp [countsAux, hf]
        rw [hacc]
        refine ih _ acc ?_
        simp only [mapplyOp, MState.mdelete, hf, if_false]
        simpa using h
    | clear =>
      have hacc : countsAux s acc (Op.clear :: rest) =
          countsAux (mapplyOp s Op.clear) (0, 0, 0) rest := by
        simp [countsAux]
      rw [hacc]
      exact ih _ _ (by simp [mapplyOp, MState.mclear])
    | peek k => exact ih _ acc h
    | has k => exact ih _ acc h
    | resetStats =>
      have hacc : countsAux s acc (Op.resetStats :: rest) =
          countsAux (mapplyOp s Op.resetStats) acc rest := by
        simp [countsAux]
      rw [hacc]
      exact ih _ acc (by simpa [mapplyOp, MState.mresetStats] using h)

/-! ## Claim theorems -/

theorem models_of_mk (K V : Type) [DecidableEq K] (cap : ℚ) (c0 : LRUCache K V)
    (h : mkLRUCache K V cap = Except.ok c0) :
    c0 = initCache K V cap ∧ 0 < cap := by
  by_cases hcap : cap ≤ 0
  · simp [mkLRUCache, hcap] at h
  · refine ⟨?_, not_le.mp hcap⟩
    simp [mkLRUCache, hcap] at h
    exact h.symm

/-- Claim C1: for every sequence of public cache operations on a
successfully constructed cache, after each operation a key is present in
the index map iff a node carrying that key is reachable in the
head-to-tail chain, the mapped node is that exact node, and the size
equals both the number of index entries and the number of chain nodes. -/
theorem c1_index_chain_consistency (K V : Type) [DecidableEq K] (cap : ℚ)
    (c0 : LRUCache K V) (h : mkLRUCache K V cap = Except.ok c0)
    (ops : List (Op K V)) : Consistent (run c0 ops) := by
  obtain ⟨rfl, -⟩ := models_of_mk K V cap c0 h
  obtain ⟨ids, hInv, -, -, -, -, -⟩ := models_run _ _ ops (models_init K V cap)
  exact inv_consistent _ ids hInv

/-- Witness for C1 at capacity 3 and a concrete operation sequence. -/
theorem c1_index_chain_consistency_witness :
    Consistent (run (initCache Nat Nat 3) [Op.put 0 10, Op.get 0, Op.put 1 20]) :=
  c1_index_chain_consistency Nat Nat 3 (initCache Nat Nat 3) rfl
    [Op.put 0 10, Op.get 0, Op.put 1 20]

/-- The keys ever put by a sequence of operations. -/
def putKeysList (ops : List (Op K V)) : List K :=
  ops.filterMap fun o =>
    match o with
    | Op.put k _ => some k
    | _ => none

/-- The operation sequence refuting the literal reading of claim C2. -/
def c2CexOps : List (Op Nat Nat) := [Op.put 0 0, Op.delete 0, Op.put 0 0]

/-- Counterexample to claim C2 as stated: after `put 0, delete 0, put 0`
on a fresh capacity-3 cache the size is 1, but the number of distinct keys
ever put minus deletions minus evictions is 1 - 1 - 0 = 0. -/
theorem c2_counterexample :
    (run (initCache Nat Nat 3) c2CexOps).size = 1 ∧
    (putKeysList c2CexOps).dedup.length = 1 ∧
    (countsAux (initM Nat Nat 3) (0, 0, 0) c2CexOps).2.1 = 1 ∧
    (run (initCache Nat Nat 3) c2CexOps).evictions = 0 ∧
    (run (initCache Nat Nat 3) c2CexOps).size ≠
      (putKeysList c2CexOps).dedup.length -
      (countsAux (initM Nat Nat 3) (0, 0, 0) c2CexOps).2.1 -
      (run (initCache Nat Nat 3) c2CexOps).evictions := by
  decide

/-- Claim C2 (amended): after every operation sequence on a successfully
constructed cache, the size never exceeds the capacity, and the size plus
the successful deletions plus the evictions since the last clear equals
the number of inserting puts (puts of a key not present at the time)
since the last clear. -/
theorem c2_size_accounting (K V : Type) [DecidableEq K] (cap : ℚ)
    (c0 : LRUCache K V) (h : mkLRUCache K V cap = Except.ok c0)
    (ops : List (Op K V)) :
    ((run c0 ops).size : ℚ) ≤ (run c0 ops).capacity ∧
    (run c0 ops).size + (countsAux (initM K V cap) (0, 0, 0) ops).2.1 +
      (countsAux (initM K V cap) (0, 0, 0) ops).2.2 =
      (countsAux (initM K V cap) (0, 0, 0) ops).1 := by
  obtain ⟨rfl, hpos⟩ := models_of_mk K V cap c0 h
  have hM := models_run _ _ ops (models_init K V cap)
  have hsz := models_size _ _ hM
  obtain ⟨ids, hInv, hcorr, hcapEq, -, -, -⟩ := hM
  constructor
  · rw [hsz, hcapEq]
    refine mrun_length_le ops (initM K V cap) ?_
    simp [initM]
    exact le_of_lt hpos
  · rw [hsz]
    exact countsAux_spec ops (initM K V cap) (0, 0, 0) (by simp [initM])

/-- Witness for C2 (amended) at capacity 2 and a concrete sequence. -/
theorem c2_size_accounting_witness :
    ((run (initCache Nat Nat 2) [Op.put 0 1, Op.put 1 2, Op.put 2 3]).size : ℚ) ≤
      (run (initCache Nat Nat 2) [Op.put 0 1, Op.put 1 2, Op.put 2 3]).capacity ∧
    (run (initCache Nat Nat 2) [Op.put 0 1, Op.put 1 2, Op.put 2 3]).size +
      (countsAux (initM Nat Nat 2) (0, 0, 0) [Op.put 0 1, Op.put 1 2, Op.put 2 3]).2.1 +
      (countsAux (initM Nat Nat 2) (0, 0, 0) [Op.put 0 1, Op.put 1 2, Op.put 2 3]).2.2 =
      (countsAux (initM Nat Nat 2) (0, 0, 0) [Op.put 0 1, Op.put 1 2, Op.put 2 3]).1 :=
  c2_size_accounting Nat Nat 2 (initCache Nat Nat 2) rfl
    [Op.put 0 1, Op.put 1 2, Op.put 2 3]

/-- Counterexample to claim C7 as stated: the capacity five halves is not
a positive integer (its reduced denominator is 2), yet construction
succeeds rather than failing. -/
theorem c7_counterexample :
    (∃ c, mkLRUCache Nat Nat (mkRat 5 2) = Except.ok c) ∧ (mkRat 5 2).den ≠ 1 := by
  constructor
  · exact ⟨initCache Nat Nat (mkRat 5 2), rfl⟩
  · decide

/-- Claim C7 (amended): construction succeeds exactly for the capacities
that are strictly positive; it fails (reports the invalid-capacity error)
exactly when the capacity is not positive, integer or not. -/
theorem c7_construction_condition (K V : Type) (cap : ℚ) :
    (∃ c, mkLRUCache K V cap = Except.ok c) ↔ 0 < cap := by
  constructor
  · rintro ⟨c, hc⟩
    by_contra hle
    push_neg at hle
    simp [mkLRUCache, hle] at hc
  · intro hpos
    refine ⟨initCache K V cap, ?_⟩
    simp [mkLRUCache, not_le.mpr hpos]

/-- The key of the last `get` or `put` operation in a sequence. -/
def lastTouched (ops : List (Op K V)) : Option K :=
  (ops.filterMap fun o =>
    match o with
    | Op.get k => some k
    | Op.put k _ => some k
    | _ => none).getLast?

/-- The operation sequence refuting the literal reading of claim C4. -/
def c4CexOps : List (Op Nat Nat) := [Op.put 0 0, Op.put 1 1, Op.delete 1]

/-- Counterexample to claim C4 as stated: after `put 0, put 1, delete 1`
the cache is non-empty and the key most recently touched by `get` or
`put` is 1, but `getMostRecent` returns key 0, because key 1 is no longer
present. -/
theorem c4_counterexample :
    lastTouched c4CexOps = some 1 ∧
    (run (initCache Nat Nat 3) c4CexOps).getMostRecent = some (0, 0) ∧
    Option.map Prod.fst ((run (initCache Nat Nat 3) c4CexOps).getMostRecent) ≠
      lastTouched c4CexOps := by
  decide

/-- Claim C4 (amended): `getMostRecent` returns the entry of the key most
recently touched by `get` or `put` among the keys still present, and
`getLeastRecent` the least recently touched among those still present —
formally, the head and the last entry of the recency order computed by
the functional model. -/
theorem c4_recency_endpoints (K V : Type) [DecidableEq K] (cap : ℚ)
    (c0 : LRUCache K V) (h : mkLRUCache K V cap = Except.ok c0)
    (ops : List (Op K V)) :
    (run c0 ops).getMostRecent = (mrun (initM K V cap) ops).entries.head? ∧
    (run c0 ops).getLeastRecent = (mrun (initM K V cap) ops).entries.getLast? := by
  obtain ⟨rfl, -⟩ := models_of_mk K V cap c0 h
  have hM := models_run _ _ ops (models_init K V cap)
  exact ⟨models_getMostRecent _ _ hM, models_getLeastRecent _ _ hM⟩

/-- Witness for C4 (amended) at capacity 3 and a concrete sequence. -/
theorem c4_recency_endpoints_witness :
    (run (initCache Nat Nat 3) [Op.put 0 1, Op.put 1 2, Op.get 0]).getMostRecent =
      (mrun (initM Nat Nat 3) [Op.put 0 1, Op.put 1 2, Op.get 0]).entries.head? ∧
    (run (initCache Nat Nat 3) [Op.put 0 1, Op.put 1 2, Op.get 0]).getLeastRecent =
      (mrun (initM Nat Nat 3) [Op.put 0 1, Op.put 1 2, Op.get 0]).entries.getLast? :=
  c4_recency_endpoints Nat Nat 3 (initCache Nat Nat 3) rfl
    [Op.put 0 1, Op.put 1 2, Op.get 0]

/-- The number of `get` calls since the last `clear` only, as the
original claim counts them. -/
def getsClearFold (n : Nat) : List (Op K V) → Nat
  | [] => n
  | op :: rest =>
    match op with
    | Op.get _ => getsClearFold (n + 1) rest
    | Op.clear => getsClearFold 0 rest
    | _ => getsClearFold n rest

/-- The operation sequence refuting the literal reading of claim C5. -/
def c5CexOps : List (Op Nat Nat) := [Op.get 0, Op.resetStats]

/-- Counterexample to claim C5 as stated: after `get 0, resetStats` one
`get` has been made since construction and no `clear` has occurred, yet
`hits + misses` is 0, because `resetStats` also zeroes the counters. -/
theorem c5_counterexample :
    (run (initCache Nat Nat 3) c5CexOps).hits +
      (run (initCache Nat Nat 3) c5CexOps).misses = 0 ∧
    getsClearFold 0 c5CexOps = 1 ∧
    (run (initCache Nat Nat 3) c5CexOps).hits +
      (run (initCache Nat Nat 3) c5CexOps).misses ≠ getsClearFold 0 c5CexOps := by
  decide

/-- Claim C5 (amended): `hits + misses` equals the number of `get` calls
since the last `clear` or `resetStats` (or construction); `hitRate` is 0
when that count is 0 and `hits / (hits + misses)` when it is positive. -/
theorem c5_stats_accounting (K V : Type) [DecidableEq K] (cap : ℚ)
    (c0 : LRUCache K V) (h : mkLRUCache K V cap = Except.ok c0)
    (ops : List (Op K V)) :
    (run c0 ops).hits + (run c0 ops).misses = getsFold 0 ops ∧
    (getsFold 0 ops = 0 → (run c0 ops).hitRate = 0) ∧
    (0 < getsFold 0 ops → (run c0 ops).hitRate =
      ((run c0 ops).hits : ℚ) / (((run c0 ops).hits : ℚ) + ((run c0 ops).misses : ℚ))) := by
  obtain ⟨rfl, -⟩ := models_of_mk K V cap c0 h
  have hM := models_run _ _ ops (models_init K V cap)
  obtain ⟨ids, hInv, hcorr, hcapEq, hhits, hmisses, hevt⟩ := hM
  have hcount : (run (initCache K V cap) ops).hits +
      (run (initCache K V cap) ops).misses = getsFold 0 ops := by
    rw [hhits, hmisses]
    have := mrun_counters ops (initM K V cap)
    simpa [initM] using this
  refine ⟨hcount, ?_, ?_⟩
  · intro hz
    rw [hz] at hcount
    have h1 : (run (initCache K V cap) ops).hits + (run (initCache K V cap) ops).misses = 0 :=
      hcount
    simp [LRUCache.hitRate, h1]
  · intro hpos
    have h1 : (run (initCache K V cap) ops).hits +
        (run (initCache K V cap) ops).misses ≠ 0 := by omega
    simp only [LRUCache.hitRate, h1, if_false]

/-- Witness for C5 (amended) at capacity 3 and a concrete sequence. -/
theorem c5_stats_accounting_witness :
    (run (initCache Nat Nat 3) [Op.put 0 1, Op.get 0, Op.get 5]).hits +
      (run (initCache Nat Nat 3) [Op.put 0 1, Op.get 0, Op.get 5]).misses =
      getsFold 0 [Op.put 0 1, Op.get 0, Op.get 5] ∧
    (getsFold 0 [Op.put (0:Nat) (1:Nat), Op.get 0, Op.get 5] = 0 →
      (run (initCache Nat Nat 3) [Op.put 0 1, Op.get 0, Op.get 5]).hitRate = 0) ∧
    (0 < getsFold 0 [Op.put (0:Nat) (1:Nat), Op.get 0, Op.get 5] →
      (run (initCache Nat Nat 3) [Op.put 0 1, Op.get 0, Op.get 5]).hitRate =
        ((run (initCache Nat Nat 3) [Op.put 0 1, Op.get 0, Op.get 5]).hits : ℚ) /
        (((run (initCache Nat Nat 3) [Op.put 0 1, Op.get 0, Op.get 5]).hits : ℚ) +
         ((run (initCache Nat Nat 3) [Op.put 0 1, Op.get 0, Op.get 5]).misses : ℚ))) :=
  c5_stats_accounting Nat Nat 3 (initCache Nat Nat 3) rfl
    [Op.put 0 1, Op.get 0, Op.get 5]

theorem applyOp_readOnly (c : LRUCache K V) (op : Op K V)
    (h : op.isReadOnly = true) : applyOp c op = c := by
  cases op <;> simp_all [Op.isReadOnly, applyOp]

theorem run_readOnly (ops : List (Op K V)) (h : ∀ o ∈ ops, o.isReadOnly = true) :
    ∀ c : LRUCache K V, run c ops = c := by
  induction ops with
  | nil => intro c; rfl
  | cons op rest ih =>
    intro c
    have hstep : run c (op :: rest) = run (applyOp c op) rest := rfl
    rw [hstep, applyOp_readOnly c op (h op (by simp)), ih (fun o ho => h o (by simp [ho]))]

/-- Claim C8: `peek` and `has` leave the entire cache state unchanged:
inserting any number of them anywhere in an operation sequence yields
exactly the same state, and in particular the same next eviction victim
(the current least-recently-used entry). -/
theorem c8_peek_has_frame (K V : Type) [DecidableEq K] (c : LRUCache K V)
    (pre mid post : List (Op K V)) (hmid : ∀ o ∈ mid, o.isReadOnly = true) :
    run c (pre ++ mid ++ post) = run c (pre ++ post) ∧
    (run c (pre ++ mid ++ post)).getLeastRecent = (run c (pre ++ post)).getLeastRecent := by
  have h1 : run c (pre ++ mid ++ post) = run (run (run c pre) mid) post := by
    simp [run, List.foldl_append]
  have h2 : run c (pre ++ post) = run (run c pre) post := by
    simp [run, List.foldl_append]
  have h3 : run (run c pre) mid = run c pre := run_readOnly mid hmid (run c pre)
  have heq : run c (pre ++ mid ++ post) = run c (pre ++ post) := by
    rw [h1, h2, h3]
  exact ⟨heq, by rw [heq]⟩

/-- Witness for C8: two `peek`/`has` calls inserted between a `get` and a
`put` on a capacity-1 cache change nothing. -/
theorem c8_peek_has_frame_witness :
    run (initCache Nat Nat 1) ([Op.put 0 1, Op.get 0] ++ [Op.peek 0, Op.has 1] ++ [Op.put 2 2]) =
      run (initCache Nat Nat 1) ([Op.put 0 1, Op.get 0] ++ [Op.put 2 2]) ∧
    (run (initCache Nat Nat 1)
        ([Op.put 0 1, Op.get 0] ++ [Op.peek 0, Op.has 1] ++ [Op.put 2 2])).getLeastRecent =
      (run (initCache Nat Nat 1) ([Op.put 0 1, Op.get 0] ++ [Op.put 2 2])).getLeastRecent :=
  c8_peek_has_frame Nat Nat (initCache Nat Nat 1) [Op.put 0 1, Op.get 0]
    [Op.peek 0, Op.has 1] [Op.put 2 2] (by decide)

/-- Claim C3: when a put of an absent key brings the size above the
capacity, exactly one eviction occurs (the evictions counter increments
by one), the evicted entry is the tail (least recently used) node, it is
removed from the index, and the size returns to the capacity; in
particular, with capacity 3 and puts a,b,c then get(a) then put(d), the
evicted key is b, has(b) is false and has(a) is true. -/
theorem c3_over_capacity_eviction :
    (∀ (K V : Type) [inst : DecidableEq K] (m : ℕ) (c0 : LRUCache K V),
      mkLRUCache K V (m : ℚ) = Except.ok c0 →
      ∀ (ops : List (Op K V)) (k : K) (v : V),
      (run c0 ops).has k = false →
      (run c0 ops).size = m →
      ((run c0 ops).put k v).evictions = (run c0 ops).evictions + 1 ∧
      ((run c0 ops).put k v).size = m ∧
      ((run c0 ops).put k v).has k = true ∧
      (∀ tk tv, (run c0 ops).getLeastRecent = some (tk, tv) →
        ((run c0 ops).put k v).has tk = false ∧
        ((run c0 ops).put k v).lookup tk = none)) ∧
    ((run (initCache Nat Nat 3)
        [Op.put 0 1, Op.put 1 2, Op.put 2 3, Op.get 0]).getLeastRecent = some (1, 2) ∧
     (run (initCache Nat Nat 3)
        [Op.put 0 1, Op.put 1 2, Op.put 2 3, Op.get 0, Op.put 3 4]).has 1 = false ∧
     (run (initCache Nat Nat 3)
        [Op.put 0 1, Op.put 1 2, Op.put 2 3, Op.get 0, Op.put 3 4]).has 0 = true ∧
     (run (initCache Nat Nat 3)
        [Op.put 0 1, Op.put 1 2, Op.put 2 3, Op.get 0, Op.put 3 4]).evictions = 1) := by
  constructor
  · intro K V inst m c0 h ops k v habs hsize
    obtain ⟨rfl, hpos⟩ := models_of_mk K V (m : ℚ) c0 h
    have hm1 : 1 ≤ m := by
      have : 0 < m := by exact_mod_cast hpos
      omega
    have hM : Models (run (initCache K V (m : ℚ)) ops) (mrun (initM K V (m : ℚ)) ops) :=
      models_run _ _ ops (models_init K V (m : ℚ))
    have hscap : (mrun (initM K V (m : ℚ)) ops).capacity = (m : ℚ) :=
      mrun_capacity ops (initM K V (m : ℚ))
    have hfind : (mrun (initM K V (m : ℚ)) ops).findEntry k = none := by
      have h1 := models_has _ _ k hM
      rw [habs] at h1
      exact Option.not_isSome_iff_eq_none.mp fun h2 => by rw [← h1] at h2; cases h2
    have hlen : (mrun (initM K V (m : ℚ)) ops).entries.length = m := by
      rw [← models_size _ _ hM, hsize]
    have hne : (mrun (initM K V (m : ℚ)) ops).entries ≠ [] := by
      intro hnil
      rw [hnil] at hlen
      simp at hlen
      omega
    have hcond' : (mrun (initM K V (m : ℚ)) ops).capacity <
        ((mrun (initM K V (m : ℚ)) ops).entries.length : ℚ) + 1 := by
      rw [hscap, hlen]
      linarith
    have hmput : (mrun (initM K V (m : ℚ)) ops).mput k v =
        { (mrun (initM K V (m : ℚ)) ops) with
            entries := ((k, v) :: (mrun (initM K V (m : ℚ)) ops).entries).dropLast,
            evictions := (mrun (initM K V (m : ℚ)) ops).evictions + 1 } := by
      simp [MState.mput, hfind, hcond']
    have hMput := models_put _ _ k v hM
    rw [hmput] at hMput
    obtain ⟨ids0, hInv0, hcorr0, hcap0, hhits0, hmisses0, hevt0⟩ := hM
    refine ⟨?_, ?_, ?_, ?_⟩
    · obtain ⟨idsP, hInvP, hcorrP, hcapP, hhitsP, hmissesP, hevtP⟩ := hMput
      rw [hevtP, hevt0]
    · have hs := models_size _ _ hMput
      rw [hs]
      simp only [List.length_dropLast, List.length_cons, hlen]
      omega
    · have hhas := models_has _ _ k hMput
      rw [hhas]
      show (MState.findEntry _ k).isSome = true
      simp only [MState.findEntry]
      rw [List.dropLast_cons_of_ne_nil hne]
      rw [List.find?_cons_of_pos _ (by simp)]
      rfl
    · intro tk tv htail
      have hglr := models_getLeastRecent _ _ ⟨ids0, hInv0, hcorr0, hcap0, hhits0,
        hmisses0, hevt0⟩
      rw [hglr] at htail
      obtain ⟨l0, hl0⟩ := List.getLast?_eq_some_iff.mp htail
      have htkmem : (tk, tv) ∈ (mrun (initM K V (m : ℚ)) ops).entries := by
        rw [hl0]; simp
      have htknek : ¬(tk = k) := by
        have h2 := List.find?_eq_none.mp hfind (tk, tv) htkmem
        simpa using h2
      have hknd := models_keys_nodup _ _ ⟨ids0, hInv0, hcorr0, hcap0, hhits0,
        hmisses0, hevt0⟩
      have htknotin : tk ∉ l0.map Prod.fst := by
        rw [hl0] at hknd
        simp only [List.map_append, List.map_cons, List.map_nil] at hknd
        have := List.nodup_append.mp hknd
        exact fun hmem => this.2.2 hmem (by simp)
      have hentries' : ((k, v) :: (mrun (initM K V (m : ℚ)) ops).entries).dropLast =
          (k, v) :: l0 := by
        rw [hl0, ← List.cons_append, List.dropLast_concat]
      have hfind' : ({ (mrun (initM K V (m : ℚ)) ops) with
          entries := ((k, v) :: (mrun (initM K V (m : ℚ)) ops).entries).dropLast,
          evictions := (mrun (initM K V (m : ℚ)) ops).evictions + 1 } :
            MState K V).findEntry tk = none := by
        show List.find? _ (((k, v) :: (mrun (initM K V (m : ℚ)) ops).entries).dropLast) = none
        rw [hentries']
        rw [List.find?_cons_of_neg _
          (by simp only [decide_eq_true_eq]; exact fun e => htknek e.symm)]
        rw [List.find?_eq_none]
        intro p hp
        simp only [decide_eq_true_eq]
        intro hpk
        exact htknotin (by rw [← hpk]; exact List.mem_map_of_mem Prod.fst hp)
      constructor
      · have hhas := models_has _ _ tk hMput
        rw [hhas, hfind']
        rfl
      · have hlk := models_lookup_isSome _ _ tk hMput
        rw [hfind'] at hlk
        exact Option.not_isSome_iff_eq_none.mp fun h2 => by
          rw [hlk] at h2
          cases h2
  · exact ⟨by decide, by decide, by decide, by decide⟩

/-- Witness for the general part of C3: a concrete over-capacity put on a
full capacity-2 cache evicts exactly the tail entry. -/
theorem c3_over_capacity_eviction_witness :
    ((run (initCache Nat Nat 2) [Op.put 0 1, Op.put 1 2]).put 2 3).evictions =
      (run (initCache Nat Nat 2) [Op.put 0 1, Op.put 1 2]).evictions + 1 ∧
    ((run (initCache Nat Nat 2) [Op.put 0 1, Op.put 1 2]).put 2 3).size = 2 ∧
    ((run (initCache Nat Nat 2) [Op.put 0 1, Op.put 1 2]).put 2 3).has 2 = true ∧
    (∀ tk tv, (run (initCache Nat Nat 2) [Op.put 0 1, Op.put 1 2]).getLeastRecent =
        some (tk, tv) →
      ((run (initCache Nat Nat 2) [Op.put 0 1, Op.put 1 2]).put 2 3).has tk = false ∧
      ((run (initCache Nat Nat 2) [Op.put 0 1, Op.put 1 2]).put 2 3).lookup tk = none) :=
  c3_over_capacity_eviction.1 Nat Nat 2 (initCache Nat Nat 2) rfl
    [Op.put 0 1, Op.put 1 2] 2 3 (by decide) (by decide)

theorem put_present_effects (c : LRUCache K V) (s : MState K V)
    (hM : Models c s) (k : K) (v : V) (hpres : c.has k = true) :
    (c.put k v).size = c.size ∧ (c.put k v).evictions = c.evictions ∧
    (c.put k v).hits = c.hits ∧ (c.put k v).misses = c.misses ∧
    (c.put k v).getMostRecent = some (k, v) ∧ ((c.put k v).get k).1 = some v := by
  have hfs : (s.findEntry k).isSome = true := by
    rw [← models_has c s k hM]; exact hpres
  obtain ⟨p, hp⟩ := Option.isSome_iff_exists.mp hfs
  obtain ⟨k0, v0⟩ := p
  have hpk : k0 = k := by simpa using List.find?_some hp
  rw [hpk] at hp
  have hfind : s.findEntry k = some (k, v0) := hp
  have hmput : s.mput k v = { s with entries := (k, v) :: MState.eraseKey s.entries k } := by
    simp [MState.mput, hfind]
  have hMput := models_put c s k v hM
  rw [hmput] at hMput
  have hlen := eraseKey_length s.entries k hfs
  obtain ⟨ids0, hInv0, hcorr0, hcap0, hhits0, hmisses0, hevt0⟩ := hM
  refine ⟨?_, ?_, ?_, ?_, ?_, ?_⟩
  · rw [models_size _ _ hMput,
      models_size _ _ ⟨ids0, hInv0, hcorr0, hcap0, hhits0, hmisses0, hevt0⟩]
    simpa using hlen
  · obtain ⟨idsP, hInvP, hcorrP, hcapP, hhitsP, hmissesP, hevtP⟩ := hMput
    rw [hevtP, hevt0]
  · obtain ⟨idsP, hInvP, hcorrP, hcapP, hhitsP, hmissesP, hevtP⟩ := hMput
    rw [hhitsP, hhits0]
  · obtain ⟨idsP, hInvP, hcorrP, hcapP, hhitsP, hmissesP, hevtP⟩ := hMput
    rw [hmissesP, hmisses0]
  · rw [models_getMostRecent _ _ hMput]
    rfl
  · rw [(models_get (c.put k v) _ k hMput).1]
    show (MState.mget _ k).1 = some v
    simp [MState.mget, MState.findEntry, List.find?_cons_of_pos]

theorem put_makes_present (m : ℕ) (hm : 1 ≤ m) (c : LRUCache K V) (s : MState K V)
    (hM : Models c s) (hcap : s.capacity = (m : ℚ)) (k : K) (v : V) :
    (c.put k v).has k = true := by
  have hMput := models_put c s k v hM
  have hex : ∃ l', (s.mput k v).entries = (k, v) :: l' := by
    by_cases hf : (s.findEntry k).isSome
    · exact ⟨MState.eraseKey s.entries k, by simp [MState.mput, hf]⟩
    · have hfind : s.findEntry k = none :=
        Option.not_isSome_iff_eq_none.mp hf
      by_cases hov : s.capacity < (s.entries.length : ℚ) + 1
      · have hne : s.entries ≠ [] := by
          intro hnil
          rw [hnil] at hov
          rw [hcap] at hov
          simp at hov
          have : (1 : ℚ) ≤ (m : ℚ) := by exact_mod_cast hm
          linarith
        refine ⟨s.entries.dropLast, ?_⟩
        simp only [MState.mput, hfind, Option.isSome_none, Bool.false_eq_true, if_false]
        rw [if_pos (by push_cast; simpa using hov)]
        simp only []
        rw [List.dropLast_cons_of_ne_nil hne]
      · refine ⟨s.entries, ?_⟩
        simp only [MState.mput, hfind, Option.isSome_none, Bool.false_eq_true, if_false]
        rw [if_neg (by push_cast; simpa using hov)]
  obtain ⟨l', hl'⟩ := hex
  rw [models_has _ _ k hMput]
  show (MState.findEntry _ k).isSome = true
  simp [MState.findEntry, hl', List.find?_cons_of_pos]

/-- Claim C6: a put of an already-present key overwrites the node's
value, moves it to the head (most recently used), leaves size unchanged,
performs no eviction and does not touch the hit or miss counters; in
particular put(k,v1) then put(k,v2) leaves the size unchanged and a
subsequent get(k) returns v2. -/
theorem c6_overwrite_semantics (K V : Type) [DecidableEq K] (m : ℕ)
    (c0 : LRUCache K V) (h : mkLRUCache K V (m : ℚ) = Except.ok c0)
    (ops : List (Op K V)) (k : K) (v v1 v2 : V) :
    ((run c0 ops).has k = true →
      ((run c0 ops).put k v).size = (run c0 ops).size ∧
      ((run c0 ops).put k v).evictions = (run c0 ops).evictions ∧
      ((run c0 ops).put k v).hits = (run c0 ops).hits ∧
      ((run c0 ops).put k v).misses = (run c0 ops).misses ∧
      ((run c0 ops).put k v).getMostRecent = some (k, v) ∧
      (((run c0 ops).put k v).get k).1 = some v) ∧
    ((((run c0 ops).put k v1).put k v2).size = ((run c0 ops).put k v1).size ∧
     ((((run c0 ops).put k v1).put k v2).get k).1 = some v2) := by
  obtain ⟨rfl, hpos⟩ := models_of_mk K V (m : ℚ) c0 h
  have hm1 : 1 ≤ m := by
    have : 0 < m := by exact_mod_cast hpos
    omega
  have hM : Models (run (initCache K V (m : ℚ)) ops) (mrun (initM K V (m : ℚ)) ops) :=
    models_run _ _ ops (models_init K V (m : ℚ))
  constructor
  · intro hpres
    exact put_present_effects _ _ hM k v hpres
  · have hrunext : (run (initCache K V (m : ℚ)) ops).put k v1 =
        run (initCache K V (m : ℚ)) (ops ++ [Op.put k v1]) := by
      simp [run, List.foldl_append, applyOp]
    have hM1 : Models (run (initCache K V (m : ℚ)) (ops ++ [Op.put k v1]))
        (mrun (initM K V (m : ℚ)) (ops ++ [Op.put k v1])) :=
      models_run _ _ _ (models_init K V (m : ℚ))
    have hpres1 : ((run (initCache K V (m : ℚ)) ops).put k v1).has k = true :=
      put_makes_present m hm1 _ _ hM (mrun_capacity ops (initM K V (m : ℚ))) k v1
    rw [hrunext] at hpres1 ⊢
    exact ⟨(put_present_effects _ _ hM1 k v2 hpres1).1,
      (put_present_effects _ _ hM1 k v2 hpres1).2.2.2.2.2⟩

/-- Witness for C6 at capacity 2, overwriting a present key. -/
theorem c6_overwrite_semantics_witness :
    (((run (initCache Nat Nat 2) [Op.put 0 1]).put 0 7).size =
      (run (initCache Nat Nat 2) [Op.put 0 1]).size ∧
    ((run (initCache Nat Nat 2) [Op.put 0 1]).put 0 7).evictions =
      (run (initCache Nat Nat 2) [Op.put 0 1]).evictions ∧
    ((run (initCache Nat Nat 2) [Op.put 0 1]).put 0 7).hits =
      (run (initCache Nat Nat 2) [Op.put 0 1]).hits ∧
    ((run (initCache Nat Nat 2) [Op.put 0 1]).put 0 7).misses =
      (run (initCache Nat Nat 2) [Op.put 0 1]).misses ∧
    ((run (initCache Nat Nat 2) [Op.put 0 1]).put 0 7).getMostRecent = some (0, 7) ∧
    (((run (initCache Nat Nat 2) [Op.put 0 1]).put 0 7).get 0).1 = some 7) ∧
    ((((run (initCache Nat Nat 2) [Op.put 0 1]).put 0 8).put 0 9).size =
      ((run (initCache Nat Nat 2) [Op.put 0 1]).put 0 8).size ∧
     ((((run (initCache Nat Nat 2) [Op.put 0 1]).put 0 8).put 0 9).get 0).1 = some 9) :=
  ⟨(c6_overwrite_semantics Nat Nat 2 (initCache Nat Nat 2) rfl [Op.put 0 1]
      0 7 8 9).1 (by decide),
   (c6_overwrite_semantics Nat Nat 2 (initCache Nat Nat 2) rfl [Op.put 0 1]
      0 7 8 9).2⟩

/-- The two-element list refuting the link-clearing part of claim C9. -/
def c9CexList : DoublyLinkedList Nat :=
  ((emptyDLL Nat).addLast 10).addLast 20

/-- Counterexample to claim C9 as stated: removing the first of two nodes
from the standalone doubly linked list relinks the new head but leaves
the removed node's own `next` link pointing at its old neighbour instead
of clearing it. -/
theorem c9_counterexample :
    (c9CexList.removeFirst).2.nodes 0 =
      some { value := 10, prev := none, next := some 1 } ∧
    (c9CexList.removeFirst).2.nodes 0 ≠
      some { value := 10, prev := none, next := none } := by
  decide

theorem removeNode_local_spec (c : LRUCache K V) (i : Nat) (n : LRUNode K V)
    (hn : c.nodes i = some n)
    (hpi : ∀ p, n.prev = some p → p ≠ i)
    (hqi : ∀ q, n.next = some q → q ≠ i)
    (hpq : ∀ p q, n.prev = some p → n.next = some q → p ≠ q) :
    (c.removeNode i).nodes i = some { n with prev := none, next := none } ∧
    (n.prev = none → (c.removeNode i).head = n.next) ∧
    (n.next = none → (c.removeNode i).tail = n.prev) ∧
    (∀ p pn, n.prev = some p → c.nodes p = some pn →
      (c.removeNode i).nodes p = some { pn with next := n.next }) ∧
    (∀ q qn, n.next = some q → c.nodes q = some qn →
      (c.removeNode i).nodes q = some { qn with prev := n.prev }) := by
  cases hprev : n.prev with
  | none =>
    cases hnext : n.next with
    | none =>
      have hres : c.removeNode i =
          { c with nodes := updFn c.nodes i (some { n with prev := none, next := none }),
                   head := none, tail := none } := by
        simp [LRUCache.removeNode, hn, hprev, hnext, LRUCache.setNode]
      refine ⟨?_, ?_, ?_, ?_, ?_⟩
      · rw [hres]; simp [updFn]
      · intro _; rw [hres]
      · intro _; rw [hres]
      · intro p2 pn2 hp2 _; cases hp2
      · intro q2 qn2 hq2 _; cases hq2
    | some q =>
      have hiq : ¬(i = q) := fun e => (hqi q hnext) e.symm
      have hqi2 : ¬(q = i) := hqi q hnext
      cases hcq : c.nodes q with
      | some qn =>
        have hres : c.removeNode i =
            { c with nodes := updFn (updFn c.nodes q (some { qn with prev := none })) i
                       (some { n with prev := none, next := none }),
                     head := some q } := by
          simp [LRUCache.removeNode, hn, hprev, hnext, hcq, LRUCache.setNode, updFn, hiq]
        refine ⟨?_, ?_, ?_, ?_, ?_⟩
        · rw [hres]; simp [updFn]
        · intro _; rw [hres]
        · intro hx; cases hx
        · intro p2 pn2 hp2 _; cases hp2
        · intro q2 qn2 hq2 hcq2
          cases hq2
          rw [hcq] at hcq2
          cases hcq2
          rw [hres]
          simp [updFn, hqi2]
      | none =>
        have hres : c.removeNode i =
            { c with nodes := updFn c.nodes i (some { n with prev := none, next := none }),
                     head := some q } := by
          simp [LRUCache.removeNode, hn, hprev, hnext, hcq, LRUCache.setNode, updFn]
        refine ⟨?_, ?_, ?_, ?_, ?_⟩
        · rw [hres]; simp [updFn]
        · intro _; rw [hres]
        · intro hx; cases hx
        · intro p2 pn2 hp2 _; cases hp2
        · intro q2 qn2 hq2 hcq2
          cases hq2
          rw [hcq] at hcq2
          cases hcq2
  | some p =>
    have hip : ¬(i = p) := fun e => (hpi p hprev) e.symm
    have hpi2 : ¬(p = i) := hpi p hprev
    cases hnext : n.next with
    | none =>
      cases hcp : c.nodes p with
      | some pn =>
        have hres : c.removeNode i =
            { c with nodes := updFn (updFn c.nodes p (some { pn with next := none })) i
                       (some { n with prev := none, next := none }),
                     tail := some p } := by
          simp [LRUCache.removeNode, hn, hprev, hnext, hcp, LRUCache.setNode, updFn, hip]
        refine ⟨?_, ?_, ?_, ?_, ?_⟩
        · rw [hres]; simp [updFn]
        · intro hx; cases hx
        · intro _; rw [hres]
        · intro p2 pn2 hp2 hcp2
          cases hp2
          rw [hcp] at hcp2
          cases hcp2
          rw [hres]
          simp [updFn, hpi2]
        · intro q2 qn2 hq2 _; cases hq2
      | none =>
        have hres : c.removeNode i =
            { c with nodes := updFn c.nodes i (some { n with prev := none, next := none }),
                     tail := some p } := by
          simp [LRUCache.removeNode, hn, hprev, hnext, hcp, LRUCache.setNode, updFn]
        refine ⟨?_, ?_, ?_, ?_, ?_⟩
        · rw [hres]; simp [updFn]
        · intro hx; cases hx
        · intro _; rw [hres]
        · intro p2 pn2 hp2 hcp2
          cases hp2
          rw [hcp] at hcp2
          cases hcp2
        · intro q2 qn2 hq2 _; cases hq2
    | some q =>
      have hiq : ¬(i = q) := fun e => (hqi q hnext) e.symm
      have hqi2 : ¬(q = i) := hqi q hnext
      have hpq2 : ¬(p = q) := hpq p q hprev hnext
      have hqp2 : ¬(q = p) := fun e => hpq2 e.symm
      cases hcp : c.nodes p with
      | some pn =>
        cases hcq : c.nodes q with
        | some qn =>
          have hres : c.removeNode i =
              { c with nodes := updFn (updFn (updFn c.nodes p
                         (some { pn with next := some q })) q
                         (some { qn with prev := some p })) i
                         (some { n with prev := none, next := none }) } := by
            simp [LRUCache.removeNode, hn, hprev, hnext, hcp, hcq, LRUCache.setNode,
              updFn, hip, hiq, hqp2]
          refine ⟨?_, ?_, ?_, ?_, ?_⟩
          · rw [hres]; simp [updFn]
          · intro hx; cases hx
          · intro hx; cases hx
          · intro p2 pn2 hp2 hcp2
            cases hp2
            rw [hcp] at hcp2
            cases hcp2
            rw [hres]
            simp [updFn, hpi2, hpq2]
          · intro q2 qn2 hq2 hcq2
            cases hq2
            rw [hcq] at hcq2
            cases hcq2
            rw [hres]
            simp [updFn, hqi2]
        | none =>
          have hres : c.removeNode i =
              { c with nodes := updFn (updFn c.nodes p
                         (some { pn with next := some q })) i
                         (some { n with prev := none, next := none }) } := by
            simp [LRUCache.removeNode, hn, hprev, hnext, hcp, hcq, LRUCache.setNode,
              updFn, hip, hiq, hqp2]
          refine ⟨?_, ?_, ?_, ?_, ?_⟩
          · rw [hres]; simp [updFn]
          · intro hx; cases hx
          · intro hx; cases hx
          · intro p2 pn2 hp2 hcp2
            cases hp2
            rw [hcp] at hcp2
            cases hcp2
            rw [hres]
            simp [updFn, hpi2]
          · intro q2 qn2 hq2 hcq2
            cases hq2
            rw [hcq] at hcq2
            cases hcq2
      | none =>
        cases hcq : c.nodes q with
        | some qn =>
          have hres : c.removeNode i =
              { c with nodes := updFn (updFn c.nodes q
                         (some { qn with prev := some p })) i
                         (some { n with prev := none, next := none }) } := by
            simp [LRUCache.removeNode, hn, hprev, hnext, hcp, hcq, LRUCache.setNode,
              updFn, hip, hiq]
          refine ⟨?_, ?_, ?_, ?_, ?_⟩
          · rw [hres]; simp [updFn]
          · intro hx; cases hx
          · intro hx; cases hx
          · intro p2 pn2 hp2 hcp2
            cases hp2
            rw [hcp] at hcp2
            cases hcp2
          · intro q2 qn2 hq2 hcq2
            cases hq2
            rw [hcq] at hcq2
            cases hcq2
            rw [hres]
            simp [updFn, hqi2]
        | none =>
          have hres : c.removeNode i =
              { c with nodes := updFn c.nodes i
                         (some { n with prev := none, next := none }) } := by
            simp [LRUCache.removeNode, hn, hprev, hnext, hcp, hcq, LRUCache.setNode,
              updFn, hip, hiq]
          refine ⟨?_, ?_, ?_, ?_, ?_⟩
          · rw [hres]; simp [updFn]
          · intro hx; cases hx
          · intro hx; cases hx
          · intro p2 pn2 hp2 hcp2
            cases hp2
            rw [hcp] at hcp2
            cases hcp2
          · intro q2 qn2 hq2 hcq2
            cases hq2
            rw [hcq] at hcq2
            cases hcq2

/-- Local behaviour of the standalone list's `removeFirst`: the new head
is relinked and `tail` cleared at the boundary, but the removed node's own
entry in the heap is left untouched. -/
theorem removeFirst_spec {T : Type} (d : DoublyLinkedList T) (h : Nat) (n : DLLNode T)
    (hh : d.head = some h) (hn : d.nodes h = some n) :
    (d.removeFirst).1 = some n.value ∧
    (d.removeFirst).2.head = n.next ∧
    (n.next = none → (d.removeFirst).2.tail = none) ∧
    (∀ j jn, n.next = some j → j ≠ h → d.nodes j = some jn →
      (d.removeFirst).2.nodes j = some { jn with prev := none }) ∧
    ((∀ j, n.next = some j → j ≠ h) → (d.removeFirst).2.nodes h = some n) := by
  cases hnext : n.next with
  | none =>
    have hres : d.removeFirst =
        (some n.value, { d with head := none, tail := none, size := d.size - 1 }) := by
      simp [DoublyLinkedList.removeFirst, hh, hn, hnext]
    refine ⟨?_, ?_, ?_, ?_, ?_⟩
    · rw [hres]
    · rw [hres]
    · intro _; rw [hres]
    · intro j jn hj _ _; cases hj
    · intro _; rw [hres]; exact hn
  | some j =>
    cases hdj : d.nodes j with
    | some jn =>
      have hres : d.removeFirst =
          (some n.value,
           { d with nodes := updFn d.nodes j (some { jn with prev := none }),
                    head := some j, size := d.size - 1 }) := by
        simp [DoublyLinkedList.removeFirst, hh, hn, hnext, hdj]
      refine ⟨?_, ?_, ?_, ?_, ?_⟩
      · rw [hres]
      · rw [hres]
      · intro hx; cases hx
      · intro j2 jn2 hj2 _ hdj2
        cases hj2
        rw [hdj] at hdj2
        cases hdj2
        rw [hres]
        simp [updFn]
      · intro hall
        have hhj : ¬(h = j) := fun e => (hall j rfl) e.symm
        rw [hres]
        simpa [updFn, hhj] using hn
    | none =>
      have hres : d.removeFirst =
          (some n.value, { d with head := some j, size := d.size - 1 }) := by
        simp [DoublyLinkedList.removeFirst, hh, hn, hnext, hdj]
      refine ⟨?_, ?_, ?_, ?_, ?_⟩
      · rw [hres]
      · rw [hres]
      · intro hx; cases hx
      · intro j2 jn2 hj2 _ hdj2
        cases hj2
        rw [hdj] at hdj2
        cases hdj2
      · intro _; rw [hres]; exact hn

/-- Local behaviour of the standalone list's `removeLast`, symmetric to
`removeFirst`: the removed node's own entry is left untouched. -/
theorem removeLast_spec {T : Type} (d : DoublyLinkedList T) (t : Nat) (n : DLLNode T)
    (ht : d.tail = some t) (hn : d.nodes t = some n) :
    (d.removeLast).1 = some n.value ∧
    (d.removeLast).2.tail = n.prev ∧
    (n.prev = none → (d.removeLast).2.head = none) ∧
    (∀ j jn, n.prev = some j → j ≠ t → d.nodes j = some jn →
      (d.removeLast).2.nodes j = some { jn with next := none }) ∧
    ((∀ j, n.prev = some j → j ≠ t) → (d.removeLast).2.nodes t = some n) := by
  cases hprev : n.prev with
  | none =>
    have hres : d.removeLast =
        (some n.value, { d with head := none, tail := none, size := d.size - 1 }) := by
      simp [DoublyLinkedList.removeLast, ht, hn, hprev]
    refine ⟨?_, ?_, ?_, ?_, ?_⟩
    · rw [hres]
    · rw [hres]
    · intro _; rw [hres]
    · intro j jn hj _ _; cases hj
    · intro _; rw [hres]; exact hn
  | some j =>
    cases hdj : d.nodes j with
    | some jn =>
      have hres : d.removeLast =
          (some n.value,
           { d with nodes := updFn d.nodes j (some { jn with next := none }),
                    tail := some j, size := d.size - 1 }) := by
        simp [DoublyLinkedList.removeLast, ht, hn, hprev, hdj]
      refine ⟨?_, ?_, ?_, ?_, ?_⟩
      · rw [hres]
      · rw [hres]
      · intro hx; cases hx
      · intro j2 jn2 hj2 _ hdj2
        cases hj2
        rw [hdj] at hdj2
        cases hdj2
        rw [hres]
        simp [updFn]
      · intro hall
        have htj : ¬(t = j) := fun e => (hall j rfl) e.symm
        rw [hres]
        simpa [updFn, htj] using hn
    | none =>
      have hres : d.removeLast =
          (some n.value, { d with tail := some j, size := d.size - 1 }) := by
        simp [DoublyLinkedList.removeLast, ht, hn, hprev, hdj]
      refine ⟨?_, ?_, ?_, ?_, ?_⟩
      · rw [hres]
      · rw [hres]
      · intro hx; cases hx
      · intro j2 jn2 hj2 _ hdj2
        cases hj2
        rw [hdj] at hdj2
        cases hdj2
      · intro _; rw [hres]; exact hn

/-- Local behaviour of the standalone list's `removeAt` on a middle index:
both neighbours are relinked across the removed node, but the removed
node's own entry is left untouched. -/
theorem removeAt_middle_spec {T : Type} (d : DoublyLinkedList T) (index j : Nat)
    (n : DLLNode T)
    (h0 : 0 < index) (hlt : index < d.size - 1)
    (hget : d.getNodeAt index = some j) (hn : d.nodes j = some n)
    (hpj : ∀ p, n.prev = some p → p ≠ j)
    (hqj : ∀ q, n.next = some q → q ≠ j)
    (hpq : ∀ p q, n.prev = some p → n.next = some q → p ≠ q) :
    (d.removeAt index).1 = some n.value ∧
    (∀ p pn, n.prev = some p → d.nodes p = some pn →
      (d.removeAt index).2.nodes p = some { pn with next := n.next }) ∧
    (∀ q qn, n.next = some q → d.nodes q = some qn →
      (d.removeAt index).2.nodes q = some { qn with prev := n.prev }) ∧
    (d.removeAt index).2.nodes j = some n := by
  have hsz : ¬(index ≥ d.size) := by omega
  have hne0 : ¬(index = 0) := by omega
  have hnel : ¬(index = d.size - 1) := by omega
  cases hprev : n.prev with
  | none =>
    cases hnext : n.next with
    | none =>
      have hres : d.removeAt index = (some n.value, { d with size := d.size - 1 }) := by
        simp [DoublyLinkedList.removeAt, hsz, hne0, hnel, hget, hn, hprev, hnext]
      refine ⟨?_, ?_, ?_, ?_⟩
      · rw [hres]
      · intro p pn hp _; cases hp
      · intro q qn hq _; cases hq
      · rw [hres]; exact hn
    | some q =>
      cases hdq : d.nodes q with
      | some qn =>
        have hres : d.removeAt index =
            (some n.value,
             { d with nodes := updFn d.nodes q (some { qn with prev := none }),
                      size := d.size - 1 }) := by
          simp [DoublyLinkedList.removeAt, hsz, hne0, hnel, hget, hn, hprev, hnext, hdq]
        refine ⟨?_, ?_, ?_, ?_⟩
        · rw [hres]
        · intro p pn hp _; cases hp
        · intro q2 qn2 hq2 hdq2
          cases hq2
          rw [hdq] at hdq2
          cases hdq2
          rw [hres]
          simp [updFn]
        · have hjq : ¬(j = q) := fun e => (hqj q hnext) e.symm
          rw [hres]
          simpa [updFn, hjq] using hn
      | none =>
        have hres : d.removeAt index = (some n.value, { d with size := d.size - 1 }) := by
          simp [DoublyLinkedList.removeAt, hsz, hne0, hnel, hget, hn, hprev, hnext, hdq]
        refine ⟨?_, ?_, ?_, ?_⟩
        · rw [hres]
        · intro p pn hp _; cases hp
        · intro q2 qn2 hq2 hdq2
          cases hq2
          rw [hdq] at hdq2
          cases hdq2
        · rw [hres]; exact hn
  | some p =>
    have hjp : ¬(j = p) := fun e => (hpj p hprev) e.symm
    cases hnext : n.next with
    | none =>
      cases hdp : d.nodes p with
      | some pn =>
        have hres : d.removeAt index =
            (some n.value,
             { d with nodes := updFn d.nodes p (some { pn with next := none }),
                      size := d.size - 1 }) := by
          simp [DoublyLinkedList.removeAt, hsz, hne0, hnel, hget, hn, hprev, hnext, hdp]
        refine ⟨?_, ?_, ?_, ?_⟩
        · rw [hres]
        · intro p2 pn2 hp2 hdp2
          cases hp2
          rw [hdp] at hdp2
          cases hdp2
          rw [hres]
          simp [updFn]
        · intro q qn hq _; cases hq
        · rw [hres]
          simpa [updFn, hjp] using hn
      | none =>
        have hres : d.removeAt index = (some n.value, { d with size := d.size - 1 }) := by
          simp [DoublyLinkedList.removeAt, hsz, hne0, hnel, hget, hn, hprev, hnext, hdp]
        refine ⟨?_, ?_, ?_, ?_⟩
        · rw [hres]
        · intro p2 pn2 hp2 hdp2
          cases hp2
          rw [hdp] at hdp2
          cases hdp2
        · intro q qn hq _; cases hq
        · rw [hres]; exact hn
    | some q =>
      have hjq : ¬(j = q) := fun e => (hqj q hnext) e.symm
      have hpq2 : ¬(p = q) := hpq p q hprev hnext
      have hqp2 : ¬(q = p) := fun e => hpq2 e.symm
      cases hdp : d.nodes p with
      | some pn =>
        cases hdq : d.nodes q with
        | some qn =>
          have hres : d.removeAt index =
              (some n.value,
               { d with nodes := updFn (updFn d.nodes p (some { pn with next := some q })) q
                          (some { qn with prev := some p }),
                        size := d.size - 1 }) := by
            simp [DoublyLinkedList.removeAt, hsz, hne0, hnel, hget, hn, hprev, hnext,
              hdp, hdq, updFn, hqp2]
          refine ⟨?_, ?_, ?_, ?_⟩
          · rw [hres]
          · intro p2 pn2 hp2 hdp2
            cases hp2
            rw [hdp] at hdp2
            cases hdp2
            rw [hres]
            simp [updFn, hpq2]
          · intro q2 qn2 hq2 hdq2
            cases hq2
            rw [hdq] at hdq2
            cases hdq2
            rw [hres]
            simp [updFn]
          · rw [hres]
            simpa [updFn, hjp, hjq] using hn
        | none =>
          have hres : d.removeAt index =
              (some n.value,
               { d with nodes := updFn d.nodes p (some { pn with next := some q }),
                        size := d.size - 1 }) := by
            simp [DoublyLinkedList.removeAt, hsz, hne0, hnel, hget, hn, hprev, hnext,
              hdp, hdq, updFn, hqp2]
          refine ⟨?_, ?_, ?_, ?_⟩
          · rw [hres]
          · intro p2 pn2 hp2 hdp2
            cases hp2
            rw [hdp] at hdp2
            cases hdp2
            rw [hres]
            simp [updFn]
          · intro q2 qn2 hq2 hdq2
            cases hq2
            rw [hdq] at hdq2
            cases hdq2
          · rw [hres]
            simpa [updFn, hjp] using hn
      | none =>
        cases hdq : d.nodes q with
        | some qn =>
          have hres : d.removeAt index =
              (some n.value,
               { d with nodes := updFn d.nodes q (some { qn with prev := some p }),
                        size := d.size - 1 }) := by
            simp [DoublyLinkedList.removeAt, hsz, hne0, hnel, hget, hn, hprev, hnext,
              hdp, hdq]
          refine ⟨?_, ?_, ?_, ?_⟩
          · rw [hres]
          · intro p2 pn2 hp2 hdp2
            cases hp2
            rw [hdp] at hdp2
            cases hdp2
          · intro q2 qn2 hq2 hdq2
            cases hq2
            rw [hdq] at hdq2
            cases hdq2
            rw [hres]
            simp [updFn]
          · rw [hres]
            simpa [updFn, hjq] using hn
        | none =>
          have hres : d.removeAt index = (some n.value, { d with size := d.size - 1 }) := by
            simp [DoublyLinkedList.removeAt, hsz, hne0, hnel, hget, hn, hprev, hnext,
              hdp, hdq]
          refine ⟨?_, ?_, ?_, ?_⟩
          · rw [hres]
          · intro p2 pn2 hp2 hdp2
            cases hp2
            rw [hdp] at hdp2
            cases hdp2
          · intro q2 qn2 hq2 hdq2
            cases hq2
            rw [hdq] at hdq2
            cases hdq2
          · rw [hres]; exact hn

/-- Claim C9 (amended): every detach relinks the removed node's
neighbours — or updates `head`/`tail` at a boundary — in the cache's
`removeNode` and in the standalone list's `removeFirst`, `removeLast`
and middle-index `removeAt`; but only the cache's `removeNode` also
clears the removed node's own `prev`/`next` links.  The standalone list's
removal operations leave the removed node's heap entry exactly as it was,
stale links included (`c9_counterexample` refutes the original claim's
link-clearing part for the standalone list). -/
theorem c9_detach_relink (A B T : Type) [DecidableEq A] :
    (∀ (c : LRUCache A B) i n, c.nodes i = some n →
      (∀ p, n.prev = some p → p ≠ i) →
      (∀ q, n.next = some q → q ≠ i) →
      (∀ p q, n.prev = some p → n.next = some q → p ≠ q) →
      (c.removeNode i).nodes i = some { n with prev := none, next := none } ∧
      (n.prev = none → (c.removeNode i).head = n.next) ∧
      (n.next = none → (c.removeNode i).tail = n.prev) ∧
      (∀ p pn, n.prev = some p → c.nodes p = some pn →
        (c.removeNode i).nodes p = some { pn with next := n.next }) ∧
      (∀ q qn, n.next = some q → c.nodes q = some qn →
        (c.removeNode i).nodes q = some { qn with prev := n.prev })) ∧
    (∀ (d : DoublyLinkedList T) h n, d.head = some h → d.nodes h = some n →
      (d.removeFirst).1 = some n.value ∧
      (d.removeFirst).2.head = n.next ∧
      (n.next = none → (d.removeFirst).2.tail = none) ∧
      (∀ j jn, n.next = some j → j ≠ h → d.nodes j = some jn →
        (d.removeFirst).2.nodes j = some { jn with prev := none }) ∧
      ((∀ j, n.next = some j → j ≠ h) → (d.removeFirst).2.nodes h = some n)) ∧
    (∀ (d : DoublyLinkedList T) t n, d.tail = some t → d.nodes t = some n →
      (d.removeLast).1 = some n.value ∧
      (d.removeLast).2.tail = n.prev ∧
      (n.prev = none → (d.removeLast).2.head = none) ∧
      (∀ j jn, n.prev = some j → j ≠ t → d.nodes j = some jn →
        (d.removeLast).2.nodes j = some { jn with next := none }) ∧
      ((∀ j, n.prev = some j → j ≠ t) → (d.removeLast).2.nodes t = some n)) ∧
    (∀ (d : DoublyLinkedList T) index j n, 0 < index → index < d.size - 1 →
      d.getNodeAt index = some j → d.nodes j = some n →
      (∀ p, n.prev = some p → p ≠ j) →
      (∀ q, n.next = some q → q ≠ j) →
      (∀ p q, n.prev = some p → n.next = some q → p ≠ q) →
      (d.removeAt index).1 = some n.value ∧
      (∀ p pn, n.prev = some p → d.nodes p = some pn →
        (d.removeAt index).2.nodes p = some { pn with next := n.next }) ∧
      (∀ q qn, n.next = some q → d.nodes q = some qn →
        (d.removeAt index).2.nodes q = some { qn with prev := n.prev }) ∧
      (d.removeAt index).2.nodes j = some n) := by
  refine ⟨?_, ?_, ?_, ?_⟩
  · intro c i n hn hpi hqi hpq
    exact removeNode_local_spec c i n hn hpi hqi hpq
  · intro d h n hh hn
    exact removeFirst_spec d h n hh hn
  · intro d t n ht hn
    exact removeLast_spec d t n ht hn
  · intro d index j n h0 hlt hget hn hpj hqj hpq
    exact removeAt_middle_spec d index j n h0 hlt hget hn hpj hqj hpq

/-- Three-element list for exercising the middle case of `removeAt`. -/
def c9ThreeList : DoublyLinkedList Nat :=
  (((emptyDLL Nat).addLast 10).addLast 21).addLast 32

/-- Witness for C9: a three-key cache with its middle node removed, and
the concrete two- and three-element standalone lists with a boundary and
a middle node removed. -/
theorem c9_detach_relink_witness :
    (((run (initCache Nat Nat 3) [Op.put 1 10, Op.put 2 20, Op.put 3 30]).removeNode 1).nodes 1 =
       some { key := 2, value := 20, prev := none, next := none } ∧
     ((run (initCache Nat Nat 3) [Op.put 1 10, Op.put 2 20, Op.put 3 30]).removeNode 1).nodes 2 =
       some { key := 3, value := 30, prev := none, next := some 0 } ∧
     ((run (initCache Nat Nat 3) [Op.put 1 10, Op.put 2 20, Op.put 3 30]).removeNode 1).nodes 0 =
       some { key := 1, value := 10, prev := some 2, next := none }) ∧
    ((c9CexList.removeFirst).1 = some 10 ∧
     (c9CexList.removeFirst).2.head = some 1 ∧
     (c9CexList.removeFirst).2.nodes 1 = some { value := 20, prev := none, next := none } ∧
     (c9CexList.removeFirst).2.nodes 0 = some { value := 10, prev := none, next := some 1 }) ∧
    ((c9CexList.removeLast).1 = some 20 ∧
     (c9CexList.removeLast).2.tail = some 0 ∧
     (c9CexList.removeLast).2.nodes 0 = some { value := 10, prev := none, next := none } ∧
     (c9CexList.removeLast).2.nodes 1 = some { value := 20, prev := some 0, next := none }) ∧
    ((c9ThreeList.removeAt 1).1 = some 21 ∧
     (c9ThreeList.removeAt 1).2.nodes 0 = some { value := 10, prev := none, next := some 2 } ∧
     (c9ThreeList.removeAt 1).2.nodes 2 = some { value := 32, prev := some 0, next := none } ∧
     (c9ThreeList.removeAt 1).2.nodes 1 = some { value := 21, prev := some 0, next := some 2 }) := by
  have H := c9_detach_relink Nat Nat Nat
  have HA := H.1 (run (initCache Nat Nat 3) [Op.put 1 10, Op.put 2 20, Op.put 3 30]) 1
    { key := 2, value := 20, prev := some 2, next := some 0 }
    (by decide)
    (fun p hp => by cases hp; decide)
    (fun q hq => by cases hq; decide)
    (fun p q hp hq => by cases hp; cases hq; decide)
  have HB := H.2.1 c9CexList 0 { value := 10, prev := none, next := some 1 }
    (by decide) (by decide)
  have HC := H.2.2.1 c9CexList 1 { value := 20, prev := some 0, next := none }
    (by decide) (by decide)
  have HD := H.2.2.2 c9ThreeList 1 1 { value := 21, prev := some 0, next := some 2 }
    (by decide) (by decide) (by decide) (by decide)
    (fun p hp => by cases hp; decide)
    (fun q hq => by cases hq; decide)
    (fun p q hp hq => by cases hp; cases hq; decide)
  refine ⟨⟨HA.1, ?_, ?_⟩, ⟨HB.1, HB.2.1, ?_, ?_⟩, ⟨HC.1, HC.2.1, ?_, ?_⟩,
    ⟨HD.1, ?_, ?_, HD.2.2.2⟩⟩
  · exact HA.2.2.2.1 2 { key := 3, value := 30, prev := none, next := some 1 }
      rfl (by decide)
  · exact HA.2.2.2.2 0 { key := 1, value := 10, prev := some 1, next := none }
      rfl (by decide)
  · exact HB.2.2.2.1 1 { value := 20, prev := some 0, next := none } rfl
      (by decide) (by decide)
  · exact HB.2.2.2.2 (fun j hj => by cases hj; decide)
  · exact HC.2.2.2.1 0 { value := 10, prev := none, next := some 1 } rfl
      (by decide) (by decide)
  · exact HC.2.2.2.2 (fun j hj => by cases hj; decide)
  · exact HD.2.1 0 { value := 10, prev := none, next := some 1 } rfl (by decide)
  · exact HD.2.2.1 2 { value := 32, prev := some 1, next := none } rfl (by decide)

/-- Claim C10: `resetStats` zeroes the hits, misses and evictions
counters and changes nothing else — capacity, size, index, node heap,
head, tail, allocator, the stored entries and the results of `peek` and
`has` are all exactly as before. -/
theorem c10_resetStats_frame (K V : Type) [DecidableEq K] (c : LRUCache K V) :
    (c.resetStats).hits = 0 ∧ (c.resetStats).misses = 0 ∧
    (c.resetStats).evictions = 0 ∧
    (c.resetStats).size = c.size ∧ (c.resetStats).capacity = c.capacity ∧
    (c.resetStats).cache = c.cache ∧ (c.resetStats).nodes = c.nodes ∧
    (c.resetStats).head = c.head ∧ (c.resetStats).tail = c.tail ∧
    (c.resetStats).nextId = c.nextId ∧
    (c.resetStats).entriesList = c.entriesList ∧
    (∀ k, (c.resetStats).peek k = c.peek k) ∧
    (∀ k, (c.resetStats).has k = c.has k) ∧
    (c.resetStats).getMostRecent = c.getMostRecent ∧
    (c.resetStats).getLeastRecent = c.getLeastRecent :=
  ⟨rfl, rfl, rfl, rfl, rfl, rfl, rfl, rfl, rfl, rfl, rfl, fun _ => rfl, fun _ => rfl,
    rfl, rfl⟩

end Aethel
